import Mathlib

/-!
HDR+ burst pipeline: ingestion, calibration, output layout and program entry.

A shallow embedding of `src/HDRPlus.cpp` and `src/halide_load_raw.h`.

* A buffer is the dimension list of a Halide buffer (min, extent, stride per
  axis) together with the memory behind `data()`, a function from element
  offsets to stored values. Extents, strides and offsets are natural numbers.
* A pipe is the list of bytes still to read and the end-of-file indicator;
  `fgets`, `sscanf` and `fread` are modelled on it. What a command writes to
  its standard output is given by a function `popen`.
* A product of two `int`s that is not representable makes the result `none`.
* White balance multipliers are exact rationals.
* The numeric stages `align`, `merge` and `finish`, the decoder that
  `load_raws` calls and the PNG encoder are parameters.
* The command line is the list `argv`; reading `argv[argc]` is undefined.
-/

namespace HdrPlus

/-! ## Halide buffers -/

/-- Memory behind a buffer: the value stored at each element offset from `data()`. -/
abbrev Mem := Nat → Nat

/-- One axis of a buffer, as in `halide_dimension_t`. -/
structure halide_dimension_t where
  min : Nat
  extent : Nat
  stride : Nat
deriving DecidableEq, Repr

/-- A Halide `Buffer<T>`: its axes and the memory it points to. -/
structure Buffer where
  dim : List halide_dimension_t
  host : Mem

/-- Store `v` at element offset `a`. -/
def Mem.write (m : Mem) (a v : Nat) : Mem :=
  fun i => if i = a then v else m i

/-- Axes of a freshly allocated dense buffer: min 0, innermost axis first,
each stride the product of the extents before it. -/
def dense_dims : Nat → List Nat → List halide_dimension_t
  | _, [] => []
  | s, e :: es => ⟨0, e, s⟩ :: dense_dims (s * e) es

/-- The constructor `Buffer<T>(e0, e1, ...)`: a dense allocation. Its contents are whatever
the allocator returned, here `init`. -/
def Buffer.alloc (extents : List Nat) (init : Mem) : Buffer :=
  ⟨dense_dims 1 extents, init⟩

/-- The method `Buffer::dimensions()`. -/
def Buffer.dimensions (b : Buffer) : Nat := b.dim.length

/-- The method `Buffer::extent(i)`. -/
def Buffer.extent (b : Buffer) (i : Nat) : Nat :=
  match b.dim[i]? with
  | some d => d.extent
  | none => 0

/-- The method `Buffer::stride(i)`. -/
def Buffer.stride (b : Buffer) (i : Nat) : Nat :=
  match b.dim[i]? with
  | some d => d.stride
  | none => 0

/-- The method `Buffer::width()`: the extent of axis 0, or 1 without such an axis. -/
def Buffer.width (b : Buffer) : Nat :=
  if 0 < b.dimensions then b.extent 0 else 1

/-- The method `Buffer::height()`: the extent of axis 1, or 1 without such an axis. -/
def Buffer.height (b : Buffer) : Nat :=
  if 1 < b.dimensions then b.extent 1 else 1

/-- The method `Buffer::channels()`: the extent of axis 2, or 1 without such an axis. -/
def Buffer.channels (b : Buffer) : Nat :=
  if 2 < b.dimensions then b.extent 2 else 1

/-- The method `Buffer::transpose(d1, d2)`: swap the two axes in the dimension list; the
memory is not touched. -/
def Buffer.transpose (b : Buffer) (d1 d2 : Nat) : Buffer :=
  match b.dim[d1]?, b.dim[d2]? with
  | some a, some c => { b with dim := (b.dim.set d1 c).set d2 a }
  | _, _ => b

/-- Element offset of the coordinates `pos`:
the sum of `(pos[i] - min[i]) * stride[i]` over the axes. -/
def offset_of : List halide_dimension_t → List Nat → Nat
  | d :: ds, p :: ps => (p - d.min) * d.stride + offset_of ds ps
  | _, _ => 0

/-- The call operator `Buffer::operator()`: the element at the coordinates `pos`. -/
def Buffer.get (b : Buffer) (pos : List Nat) : Nat :=
  b.host (offset_of b.dim pos)

/-- A Halide `Func`: a pure function from coordinates to values. -/
abbrev Func := List Nat → Nat

/-- All coordinates of a buffer, the last axis outermost. -/
def coords : List halide_dimension_t → List (List Nat)
  | [] => [[]]
  | d :: ds =>
    (coords ds).flatMap fun rest => (List.range d.extent).map fun i => (d.min + i) :: rest

/-- The method `Func::realize(buffer)`: evaluate the function at every coordinate of the
buffer and store the value at that coordinate's address. -/
def Func.realize (f : Func) (b : Buffer) : Buffer :=
  { b with
    host := (coords b.dim).foldl (fun m pos => m.write (offset_of b.dim pos) (f pos)) b.host }

/-! ## Streams and the C library -/

/-- A byte of a stream or of a character buffer. -/
abbrev Byte := Fin 256

/-- The bytes of an ASCII text. -/
def bytes (s : String) : List Byte := s.toList.map fun c => Fin.ofNat c.toNat

/-- A `FILE*` opened for reading on a pipe: the bytes not read yet and the
end-of-file indicator. -/
structure FILE where
  rest : List Byte
  eof : Bool
deriving DecidableEq

/-- The characters one `fgets` call takes: at most `n`, stopping after a
newline. The result is (characters stored, rest of the stream, whether the end
of the stream was hit). -/
def fgets_read : Nat → List Byte → List Byte × List Byte × Bool
  | 0, s => ([], s, false)
  | _ + 1, [] => ([], [], true)
  | n + 1, c :: s =>
    if c = 10 then ([c], s, false)
    else
      let r := fgets_read n s
      (c :: r.1, r.2.1, r.2.2)

/-- The call `fgets(buf, maxlen, f)`: (status is non-null, the buffer afterwards, the
stream afterwards). At the end of the stream with nothing read the status is
null and the buffer keeps its old content. -/
def fgets (buf : List Byte) (maxlen : Nat) (f : FILE) : Bool × List Byte × FILE :=
  let r := fgets_read (maxlen - 1) f.rest
  if r.1 = [] ∧ r.2.2 = true then (false, buf, ⟨r.2.1, true⟩)
  else (true, r.1, ⟨r.2.1, f.eof || r.2.2⟩)

/-- The do-while loop of `PipeOpener::readLine`, with a bound on its iterations. -/
def readLine_loop : Nat → List Byte → Nat → FILE → Bool × List Byte × FILE
  | 0, buf, _, f => (false, buf, f)
  | k + 1, buf, maxlen, f =>
    let r := fgets buf maxlen f
    if r.1 = true ∧ r.2.1.head? = some 35 then readLine_loop k r.2.1 maxlen r.2.2
    else r

/-- The method `PipeOpener::readLine`: read a line, skipping lines that begin with `#`.
Every repetition of the loop has consumed a byte, so the bound is never reached. -/
def PipeOpener.readLine (buf : List Byte) (maxlen : Nat) (f : FILE) : Bool × List Byte × FILE :=
  readLine_loop (f.rest.length + 1) buf maxlen f

/-- The C string held in a character buffer: the bytes before the first NUL. -/
def cstr (buf : List Byte) : List Byte := buf.takeWhile fun c => c ≠ 0

/-- The function `isspace` in the C locale. -/
def isspace (c : Byte) : Bool := c = 32 || (9 ≤ c.val && c.val ≤ 13)

/-- The function `isdigit`. -/
def isdigit (c : Byte) : Bool := 48 ≤ c.val && c.val ≤ 57

/-- Skip white space, as a blank in a `scanf` format and most conversions do. -/
def skip_ws (s : List Byte) : List Byte := s.dropWhile isspace

/-- Value of a run of decimal digits. -/
def digits_value (ds : List Byte) : Nat := ds.foldl (fun a d => 10 * a + (d.val - 48)) 0

/-- An optional sign: (is negative, rest). -/
def scan_sign : List Byte → Bool × List Byte
  | 45 :: t => (true, t)
  | 43 :: t => (false, t)
  | s => (false, s)

/-- The value `%d` leaves in an `int` variable for the written number `v`.
Within the range of `int` it is `v`. Outside it ISO C leaves the conversion
undefined; the model follows the GNU C library, which the source relies on
(`asprintf`), on a host with a 64-bit `long`: `strtol` saturates at the range
of `long` and the store into the `int` keeps the low 32 bits in two's
complement. -/
def int_of_decimal (v : Int) : Int :=
  let l : Int := if v < -9223372036854775808 then -9223372036854775808
    else if 9223372036854775807 < v then 9223372036854775807 else v
  (l + 2147483648) % 4294967296 - 2147483648

/-- The conversion `%d` into an `int`: white space, an optional sign, at
least one digit; the value is what the `int` holds afterwards. -/
def scan_int (s : List Byte) : Option (Int × List Byte) :=
  let sg := scan_sign (skip_ws s)
  let ds := sg.2.takeWhile isdigit
  if ds = [] then none
  else some (int_of_decimal (if sg.1 then - (digits_value ds : Int) else (digits_value ds : Int)),
             sg.2.dropWhile isdigit)

/-- The test `sscanf(buf, "%255s", header) == 1`: the first white-space delimited token,
cut at 255 characters. -/
def sscanf_s255 (buf : List Byte) : Option (List Byte) :=
  let tok := ((skip_ws (cstr buf)).takeWhile fun c => ¬ isspace c).take 255
  if tok = [] then none else some tok

/-- The test `sscanf(buf, "%d %d\n", &in_width, &in_height) == 2`: the two
integers when both conversions succeed. -/
def sscanf_d_d (buf : List Byte) : Option (Int × Int) :=
  match scan_int (cstr buf) with
  | none => none
  | some (a, s) =>
    match scan_int s with
    | none => none
    | some (b, _) => some (a, b)

/-- The test `sscanf(buf, "%d", &maxval) == 1`: the integer when the conversion
succeeds. -/
def sscanf_d (buf : List Byte) : Option Int :=
  match scan_int (cstr buf) with
  | none => none
  | some (a, _) => some a

/-- Match the literal part of a `scanf` format: a white-space character of the
format skips any white space of the input, any other character must be the
next character of the input. -/
def match_literal : List Byte → List Byte → Option (List Byte)
  | [], s => some s
  | l :: ls, s =>
    if isspace l then match_literal ls (skip_ws s)
    else
      match s with
      | [] => none
      | c :: t => if c = l then match_literal ls t else none

/-- The exponent part of a decimal floating constant, taken only when it has
a digit: (exponent, rest). -/
def scan_exponent (s : List Byte) : Int × List Byte :=
  match s with
  | c :: t =>
    if c = 101 ∨ c = 69 then
      let sg := scan_sign t
      let ds := sg.2.takeWhile isdigit
      if ds = [] then (0, s)
      else (if sg.1 then - (digits_value ds : Int) else (digits_value ds : Int),
            sg.2.dropWhile isdigit)
    else (0, s)
  | [] => (0, s)

/-- A decimal floating constant as written: sign, digits without the point,
and the power of ten they are scaled by. -/
structure Decimal where
  neg : Bool
  mant : Nat
  exp : Int
deriving DecidableEq, Repr

/-- The exact rational a decimal constant denotes. -/
def Decimal.value (d : Decimal) : ℚ :=
  if d.neg then - ((d.mant : ℚ) * (10 : ℚ) ^ d.exp) else (d.mant : ℚ) * (10 : ℚ) ^ d.exp

/-- The conversion `%f` on decimal notation: white space, an optional sign,
digits with an optional fraction (at least one digit in all), an optional
exponent. The model stops there: it has neither the rounding to `float` nor
the spellings of infinity, NaN and hexadecimal constants, which `%f` accepts as
well, so it agrees with the library on decimal texts whose value a `float`
holds exactly. The theorems that evaluate `read_white_balance` on a stream use
small whole numbers only. -/
def scan_float (s : List Byte) : Option (Decimal × List Byte) :=
  let sg := scan_sign (skip_ws s)
  let ip := sg.2.takeWhile isdigit
  let s1 := sg.2.dropWhile isdigit
  let fr := match s1 with
    | 46 :: t => (t.takeWhile isdigit, t.dropWhile isdigit)
    | _ => ([], s1)
  if ip = [] ∧ fr.1 = [] then none
  else
    let ex := scan_exponent fr.2
    some (⟨sg.1, digits_value (ip ++ fr.1), ex.1 - (fr.1.length : Int)⟩, ex.2)

/-- The conversions of `sscanf(buf, "Camera multipliers: %f %f %f %f", ...)`
when all four succeed, in the order they stand on the line. -/
def scan_camera_multipliers (buf : List Byte) :
    Option (Decimal × Decimal × Decimal × Decimal) :=
  match match_literal (bytes "Camera multipliers: ") (cstr buf) with
  | none => none
  | some s0 =>
    match scan_float s0 with
    | none => none
    | some (a, s1) =>
      match scan_float s1 with
      | none => none
      | some (b, s2) =>
        match scan_float s2 with
        | none => none
        | some (c, s3) =>
          match scan_float s3 with
          | none => none
          | some (d, _) => some (a, b, c, d)

/-- The test `sscanf(buf, "Camera multipliers: %f %f %f %f", ...) == 4`: the values of
the four numbers, in the order they stand on the line. -/
def sscanf_camera_multipliers (buf : List Byte) : Option (ℚ × ℚ × ℚ × ℚ) :=
  match scan_camera_multipliers buf with
  | none => none
  | some (a, b, c, d) => some (a.value, b.value, c.value, d.value)

/-- Product of two non-negative `int`s; `none` when it is not representable,
which the language leaves undefined. -/
def int_mul (a b : Nat) : Option Nat :=
  if a * b < 2 ^ 31 then some (a * b) else none

/-- The call `fread(data, sizeof(uint16_t), count, f)`: (items read, memory afterwards).
A sample is stored in the byte order of the host; a single trailing byte
overwrites the first byte of the next sample. -/
def fread16 (little_endian : Bool) : Nat → List Byte → Mem → Nat → Nat × Mem
  | 0, _, mem, _ => (0, mem)
  | _ + 1, [], mem, _ => (0, mem)
  | _ + 1, [b0], mem, data =>
    (0, mem.write data
      (if little_endian then b0.val + 256 * (mem data / 256)
       else 256 * b0.val + mem data % 256))
  | n + 1, b0 :: b1 :: s, mem, data =>
    let v := if little_endian then b0.val + 256 * b1.val else 256 * b0.val + b1.val
    let r := fread16 little_endian n s (mem.write data v) (data + 1)
    (r.1 + 1, r.2)

/-! ## The pipeline class -/

/-- White balance multipliers in the order of the C++ aggregate: r, g0, g1, b. -/
structure WhiteBalance where
  r : ℚ
  g0 : ℚ
  g1 : ℚ
  b : ℚ
deriving DecidableEq

/-- The three numeric stages declared in `align.h`, `merge.h` and `finish.h`. -/
structure Stages where
  align : Buffer → Func
  merge : Buffer → Func → Func
  finish : Func → Nat → Nat → Nat → Nat → WhiteBalance → ℚ → ℚ → Func

/-- The fields of `class HDRPlus`. -/
structure HDRPlus where
  imgs : Buffer
  width : Nat
  height : Nat
  bp : Nat
  wp : Nat
  wb : WhiteBalance
  c : ℚ
  g : ℚ

/-- The constructor `HDRPlus::HDRPlus`. Each `assert` that fails aborts the
program: the result is `none` and no object exists. -/
def HDRPlus.new (imgs : Buffer) (bp wp : Nat) (wb : WhiteBalance) (c g : ℚ) : Option HDRPlus :=
  let width := imgs.width
  let height := imgs.height
  if ¬ (imgs.dimensions = 3) then none
  else if ¬ (imgs.width = width) then none
  else if ¬ (imgs.height = height) then none
  else if ¬ (imgs.extent 2 ≥ 2) then none
  else some ⟨imgs, width, height, bp, wp, wb, c, g⟩

/-- The function the finishing stage hands to `realize` inside `process`. -/
def HDRPlus.finished (S : Stages) (self : HDRPlus) : Func :=
  let alignment := S.align self.imgs
  let merged := S.merge self.imgs alignment
  S.finish merged self.width self.height self.bp self.wp self.wb self.c self.g

/-- The method `HDRPlus::process`; `init` is the content of the fresh allocation. -/
def HDRPlus.process (S : Stages) (self : HDRPlus) (init : Mem) : Buffer :=
  let finished := self.finished S
  let output_img := Buffer.alloc [3, self.width, self.height] init
  let output_img := finished.realize output_img
  let output_img := output_img.transpose 0 1
  let output_img := output_img.transpose 1 2
  output_img

/-! ## The raw frame decoder (`halide_load_raw.h`) -/

/-- The function `swap_endian_16`: the two bytes of a 16-bit value exchanged; the result is
stored back into a `uint16_t`. -/
def swap_endian_16 (value : Nat) : Nat :=
  (((value &&& 0xff) <<< 8) ||| ((value &&& 0xff00) >>> 8)) % 65536

/-- The failed checks of `load_raw`, one per message. -/
inductive LoadError where
  | could_not_open
  | no_header
  | not_binary
  | no_dimensions
  | wrong_width
  | wrong_height
  | no_max_value
  | invalid_bit_depth
  | short_read
deriving DecidableEq, Repr

/-- How a call of `load_raw` ends: every check passed, or one failed. -/
inductive LoadStatus where
  | ok
  | error (e : LoadError)
deriving DecidableEq, Repr

/-- The swapping loop of `load_raw`: rows outermost, the sample at
`y * width + x` swapped in place. -/
def swap_loop (mem : Mem) (data width height : Nat) : Mem :=
  ((List.range height).flatMap fun y => (List.range width).map fun x => y * width + x).foldl
    (fun m i => m.write (data + i) (swap_endian_16 (m (data + i)))) mem

/-- The function `load_raw`. `popen` gives the output of a command, or `none`
when the process cannot be started; `little_endian` is `is_little_endian()`;
`buf0` is the content of the uninitialised line buffer; `mem` is the memory
`data` points into. A failed `check` ends the call with its error and the
memory as it then is. The outer `none` stands for an `int` overflow in
`width * height`. -/
def load_raw (popen : String → Option (List Byte)) (little_endian : Bool) (buf0 : List Byte)
    (filename : String) (mem : Mem) (data width height : Nat) :
    Option (LoadStatus × Mem) :=
  match popen ("dcraw -c -D -6 -W -g 1 1 " ++ filename) with
  | none => some (.error .could_not_open, mem)
  | some out =>
    let f : FILE := ⟨out, false⟩
    let l1 := PipeOpener.readLine buf0 1024 f
    match sscanf_s255 l1.2.1 with
    | none => some (.error .no_header, mem)
    | some header =>
      if ¬ (header = bytes "P5" ∨ header = bytes "p5") then some (.error .not_binary, mem)
      else
        let l2 := PipeOpener.readLine l1.2.1 1024 l1.2.2
        match sscanf_d_d l2.2.1 with
        | none => some (.error .no_dimensions, mem)
        | some (in_width, in_height) =>
          if ¬ (in_width = (width : Int)) then some (.error .wrong_width, mem)
          else if ¬ (in_height = (height : Int)) then some (.error .wrong_height, mem)
          else
            let l3 := PipeOpener.readLine l2.2.1 1024 l2.2.2
            match sscanf_d l3.2.1 with
            | none => some (.error .no_max_value, mem)
            | some maxval =>
              if ¬ (maxval = 65535) then some (.error .invalid_bit_depth, mem)
              else
                match int_mul width height with
                | none => none
                | some count =>
                  let r := fread16 little_endian count l3.2.2.rest mem data
                  if ¬ (r.1 = count) then some (.error .short_read, r.2)
                  else if little_endian then some (.ok, swap_loop r.2 data width height)
                  else some (.ok, r.2)

/-! ## Burst loading and calibration (`HDRPlus.cpp`) -/

/-- The signature of the decoder `load_raws` calls for each file: the path,
the memory, the pointer `data`, the width and the height. -/
abbrev Decoder := String → Mem → Nat → Nat → Nat → Option (LoadStatus × Mem)

/-- The loop of `HDRPlus::load_raws` over the file names still to load:
(the value returned, the memory of the stack). -/
def load_raws_loop (load_image : Decoder) (dir_path : String) (width height : Nat) :
    List String → Mem → Nat → Option (Bool × Mem)
  | [], mem, _ => some (true, mem)
  | img_name :: rest, mem, data =>
    let img_path := dir_path ++ "/" ++ img_name
    match load_image img_path mem data width height with
    | none => none
    | some (.error _, mem1) => some (false, mem1)
    | some (.ok, mem1) =>
      match int_mul width height with
      | none => none
      | some step => load_raws_loop load_image dir_path width height rest mem1 (data + step)

/-- The function `HDRPlus::load_raws`: (the value returned, the buffer left in
the caller's `imgs`). `init` is the content of the fresh allocation. -/
def HDRPlus.load_raws (load_image : Decoder) (init : Mem) (dir_path : String)
    (img_names : List String) (width height : Nat) : Option (Bool × Buffer) :=
  let num_imgs := img_names.length
  let imgs := Buffer.alloc [width, height, num_imgs] init
  match load_raws_loop load_image dir_path width height img_names imgs.host 0 with
  | none => none
  | some (ok, mem) => some (ok, { imgs with host := mem })

/-- The arithmetic of `read_white_balance` on the four numbers of a matching
line: values that are not positive count as 100000 for the minimum `m`, and
each multiplier is `max(1, value / m)`. -/
def read_white_balance_normalise (r g0 g1 b : ℚ) : WhiteBalance :=
  let g1m := if g1 > 0 then g1 else 100000
  let g0m := if g0 > 0 then g0 else 100000
  let bm := if b > 0 then b else 100000
  let rm := if r > 0 then r else 100000
  let m := min (min rm g0m) (min g1m bm)
  ⟨max 1 (r / m), max 1 (g0 / m), max 1 (g1 / m), max 1 (b / m)⟩

/-- The while loop of `read_white_balance`, with a bound on its iterations.
The numbers of the line are stored as r, g0, b, g1, in this order. -/
def read_white_balance_loop : Nat → List Byte → FILE → WhiteBalance
  | 0, _, _ => ⟨2, 1, 2, 1⟩
  | k + 1, buf, f =>
    if f.eof = true then ⟨2, 1, 2, 1⟩
    else
      let l := PipeOpener.readLine buf 1024 f
      match sscanf_camera_multipliers l.2.1 with
      | some (r, g0, b, g1) => read_white_balance_normalise r g0 g1 b
      | none => read_white_balance_loop k l.2.1 l.2.2

/-- The function `read_white_balance`. `popen` gives the output of a command,
or `none` when the process cannot be started; `buf0` is the content of the
uninitialised line buffer. Every iteration consumes a byte or sets the
end-of-file indicator, so the bound is never reached. -/
def read_white_balance (popen : String → Option (List Byte)) (buf0 : List Byte)
    (file_path : String) : WhiteBalance :=
  match popen ("dcraw -v -i " ++ file_path) with
  | none => ⟨2, 1, 2, 1⟩
  | some out => read_white_balance_loop (out.length + 2) buf0 ⟨out, false⟩

/-! ## Lines of a stream -/

/-- Iterations the loop of `read_white_balance` can still make on a stream. -/
def iterations_left (f : FILE) : Nat := if f.eof = true then 0 else f.rest.length + 1

/-- The lines of a stream, each with its newline; the last one may lack it. -/
def stream_lines : List Byte → List (List Byte)
  | [] => []
  | c :: s =>
    if c = 10 then [c] :: stream_lines s
    else
      match stream_lines s with
      | [] => [[c]]
      | l :: ls => (c :: l) :: ls

/-! ## The normalisation as the specification words it -/

/-- The sentinel protection of the specification: a value that is zero or
negative is replaced by 100000. -/
def sentinel_protected (x : ℚ) : ℚ := if x ≤ 0 then 100000 else x

/-- The normalisation denominator of the specification: the least of the four
sentinel-protected values. -/
def normalisation_denominator (r g0 g1 b : ℚ) : ℚ :=
  min (sentinel_protected r)
    (min (sentinel_protected g0) (min (sentinel_protected g1) (sentinel_protected b)))

/-- A normalised white balance: every multiplier at least 1, the least exactly 1. -/
def WhiteBalance.normalised (w : WhiteBalance) : Prop :=
  1 ≤ w.r ∧ 1 ≤ w.g0 ∧ 1 ≤ w.g1 ∧ 1 ≤ w.b ∧ min (min w.r w.g0) (min w.g1 w.b) = 1

/-! ## Concrete inputs used to exercise the theorems -/

/-- Stages whose finished image has the value `100 * c + 10 * x + y` at (c, x, y). -/
def sample_stages : Stages where
  align := fun _ _ => 0
  merge := fun _ _ _ => 0
  finish := fun _ _ _ _ _ _ _ _ pos =>
    match pos with
    | [c, x, y] => 100 * c + 10 * x + y
    | _ => 0

/-- A pipeline object of width 2 and height 1. -/
def sample_hdr : HDRPlus where
  imgs := Buffer.alloc [2, 1, 2] fun _ => 0
  width := 2
  height := 1
  bp := 2050
  wp := 15464
  wb := ⟨2, 1, 2, 1⟩
  c := 38 / 10
  g := 11 / 10

/-- Decoder output for a 1 x 1 frame: header, then the bytes 0x01 0x02. -/
def sample_pgm : List Byte := bytes "P5\n1 1\n65535\n" ++ [1, 2]

/-- Decoder output with a lower-case tag and a comment line, for a 1 x 1 frame. -/
def sample_pgm_comment : List Byte := bytes "p5\n# dcraw\n1 1\n65535\n" ++ [1, 2, 7]

/-- Decoder output that declares a 2 x 1 frame. -/
def sample_pgm_wide : List Byte := bytes "P5\n2 1\n65535\n" ++ [1, 2, 3, 4]

/-- Decoder output with 8-bit samples: the maximum value is 255. -/
def sample_pgm_8bit : List Byte := bytes "P5\n1 1\n255\n" ++ [1, 2]

/-- A line of 1023 letters x followed by a camera multipliers text, without
its newline. -/
def long_line : List Byte :=
  List.replicate 1023 120 ++ bytes "Camera multipliers: 1 1 1 1"

/-- Metadata output that consists of the one line `long_line`. -/
def long_line_output : List Byte := long_line ++ [10]

/-- Metadata output whose multipliers line has three numbers only. -/
def three_fields_output : List Byte :=
  bytes "Filename: a.CR2\nCamera multipliers: 2 1 2\n"

/-- A stack of two frames of width 4 and height 3. -/
def sample_stack : Buffer := Buffer.alloc [4, 3, 2] fun _ => 0

/-- A stack with a single frame of width 4 and height 3. -/
def single_frame_stack : Buffer := Buffer.alloc [4, 3, 1] fun _ => 0

/-- Decoder output for a second 1 x 1 frame: header, then the bytes 0x03 0x04. -/
def sample_pgm_second : List Byte := bytes "P5\n1 1\n65535\n" ++ [3, 4]

/-- A decoder process that gives `sample_pgm` for the file `d/a` and
`sample_pgm_second` for every other file. -/
def sample_popen (cmd : String) : Option (List Byte) :=
  if cmd = "dcraw -c -D -6 -W -g 1 1 d/a" then some sample_pgm else some sample_pgm_second

/-- The decoded samples of the two files of `sample_popen`. -/
def sample_frames (k : Nat) (_ : Nat) : Nat := if k = 0 then 0x0102 else 0x0304

/-! ## The transposes of `process`, and their opposite order -/

/-- The buffer inside `process` after `realize` and before the transposes. -/
def HDRPlus.realized (S : Stages) (self : HDRPlus) (init : Mem) : Buffer :=
  (self.finished S).realize (Buffer.alloc [3, self.width, self.height] init)

/-- The two transposes of `process` applied in the opposite order:
`transpose(1, 2)` first, then `transpose(0, 1)`. -/
def HDRPlus.process_opposite_order (S : Stages) (self : HDRPlus) (init : Mem) : Buffer :=
  ((self.realized S init).transpose 1 2).transpose 0 1

/-- Metadata output with two multipliers lines after a first line. -/
def two_matches_output : List Byte :=
  bytes "Filename: a.CR2\nCamera multipliers: 1 2 3 4\nCamera multipliers: 1 1 1 1\n"

/-- Metadata output with the one line `Camera multipliers: 2 1 3 4`. -/
def one_match_output : List Byte := bytes "Camera multipliers: 2 1 3 4\n"

/-- A multipliers line whose fourth number comes after 998 blanks, so that the
first 1023 bytes of the line end before it; without its newline. -/
def split_number_line : List Byte :=
  bytes "Camera multipliers: 1 1 1" ++ List.replicate 998 32 ++ bytes "2"

/-- Metadata output that consists of the one line `split_number_line`. -/
def split_number_output : List Byte := split_number_line ++ [10]

/-- A decoder process that gives `sample_pgm` for the file `d/a` and cannot be
started for any other file. -/
def failing_popen (cmd : String) : Option (List Byte) :=
  if cmd = "dcraw -c -D -6 -W -g 1 1 d/a" then some sample_pgm else none

/-! ## Writing the image and the program entry (`HDRPlus.cpp`) -/

/-- The arguments `save_png` hands to `stbi_write_png`. -/
structure PngCall where
  filename : String
  w : Nat
  h : Nat
  comp : Nat
  data : Mem
  stride_in_bytes : Nat

/-- Modelled from the spec: the encoder `stbi_write_png` of
`include/stb_image_write.h`, which is not among the sources, takes an
interleaved, row-major image with the given row stride; the sample of row y,
pixel x, channel c is read at this offset from `data`. -/
def stbi_sample_offset (call : PngCall) (x y c : Nat) : Nat :=
  y * call.stride_in_bytes + x * call.comp + c

/-- The function `HDRPlus::save_png`, without the removal of an older file:
the value returned, given the encoder. The stride is a product of two `int`s. -/
def HDRPlus.save_png (stbi_write_png : PngCall → Bool) (dir_path img_name : String)
    (img : Buffer) : Option Bool :=
  let img_path := dir_path ++ "/" ++ img_name
  match int_mul img.width img.channels with
  | none => none
  | some stride_in_bytes =>
    if ¬ (stbi_write_png
        ⟨img_path, img.width, img.height, img.channels, img.host, stride_in_bytes⟩ = true)
    then some false
    else some true

/-- Where the argument checks at the start of `main` lead: the usage message
and status 1, the invalid flag message and status 1, a read of `argv[argc]`
(a null pointer, which the program then dereferences), or the pipeline run. -/
inductive Parsed where
  | usage
  | invalid_flag (flag : Option Char)
  | undefined
  | run (c g : ℚ) (dir_path out_name : String) (in_names : List String)
deriving DecidableEq

/-- The test `argv[i][0] == '-'`. -/
def is_dash (arg : String) : Bool := arg.toList.head? = some '-'

/-- The character `argv[i][1]`, `none` for the terminating NUL. -/
def flag_char (arg : String) : Option Char := arg.toList[1]?

/-- The statements of `main` after the flag loop, on the entries `argv[i..]`. -/
def main_positional (c g : ℚ) (rest : List String) : Parsed :=
  if rest.length < 4 then .usage
  else
    match rest with
    | dir_path :: out_name :: in_names => .run c g dir_path out_name in_names
    | _ => .usage

/-- The flag loop of `main` on the entries `argv[i..]`, the empty list standing
for `i = argc`; then the statements after it. The loop reads `argv[i]` and,
for the flags c and g, `argv[i + 1]`, without comparing the index with `argc`. -/
def main_flags (atof : String → ℚ) : List String → ℚ → ℚ → Parsed
  | [], _, _ => .undefined
  | [a], c, g =>
    if is_dash a = true then
      if flag_char a = some 'c' then .undefined
      else if flag_char a = some 'g' then .undefined
      else .invalid_flag (flag_char a)
    else main_positional c g [a]
  | a :: v :: rest, c, g =>
    if is_dash a = true then
      if flag_char a = some 'c' then main_flags atof rest (atof v) g
      else if flag_char a = some 'g' then main_flags atof rest c (atof v)
      else .invalid_flag (flag_char a)
    else main_positional c g (a :: v :: rest)

/-- The argument handling of `main`: the check `argc < 5`, which prints
`argv[0]`, then the flag loop from `i = 1` with the defaults 3.8 and 1.1. -/
def main_args (atof : String → ℚ) (argv : List String) : Parsed :=
  if argv.length < 5 then
    match argv with
    | [] => .undefined
    | _ :: _ => .usage
  else main_flags atof (argv.drop 1) (38 / 10) (11 / 10)

/-- What `main` depends on beside its arguments. -/
structure World where
  atof : String → ℚ
  load_image : Decoder
  popen : String → Option (List Byte)
  buf0 : List Byte
  stack_init : Mem
  output_init : Mem
  stages : Stages
  stbi_write_png : PngCall → Bool

/-- How `main` ends: a return value, the abort of a failed assertion, or
undefined behaviour. -/
inductive Outcome where
  | exit (status : Int)
  | aborted
  | undefined
deriving DecidableEq

/-- The function `main`. -/
def main (W : World) (argv : List String) : Outcome :=
  match main_args W.atof argv with
  | .usage => .exit 1
  | .invalid_flag _ => .exit 1
  | .undefined => .undefined
  | .run c g dir_path out_name in_names =>
    match HDRPlus.load_raws W.load_image W.stack_init dir_path in_names 5312 2988 with
    | none => .undefined
    | some (false, _) => .exit (-1)
    | some (true, imgs) =>
      match in_names with
      | [] => .undefined
      | first :: _ =>
        let wb := read_white_balance W.popen W.buf0 (dir_path ++ "/" ++ first)
        match HDRPlus.new imgs 2050 15464 wb c g with
        | none => .aborted
        | some hdr_plus =>
          let output := hdr_plus.process W.stages W.output_init
          match HDRPlus.save_png W.stbi_write_png dir_path out_name output with
          | none => .undefined
          | some false => .exit (-1)
          | some true => .exit 0

/-- A world in which nothing can be decoded or written. -/
def sample_world : World where
  atof := fun _ => 0
  load_image := fun _ mem _ _ _ => some (.error .could_not_open, mem)
  popen := fun _ => none
  buf0 := []
  stack_init := fun _ => 0
  output_init := fun _ => 0
  stages := sample_stages
  stbi_write_png := fun _ => false

/-! ## The three header reads of `load_raw` -/

/-- What the first `readLine` call of `load_raw` returns on the output `out`. -/
def header_read1 (buf0 out : List Byte) : Bool × List Byte × FILE :=
  PipeOpener.readLine buf0 1024 ⟨out, false⟩

/-- What the second `readLine` call of `load_raw` returns on the output `out`. -/
def header_read2 (buf0 out : List Byte) : Bool × List Byte × FILE :=
  PipeOpener.readLine (header_read1 buf0 out).2.1 1024 (header_read1 buf0 out).2.2

/-- What the third `readLine` call of `load_raw` returns on the output `out`;
its stream is where `fread` starts. -/
def header_read3 (buf0 out : List Byte) : Bool × List Byte × FILE :=
  PipeOpener.readLine (header_read2 buf0 out).2.1 1024 (header_read2 buf0 out).2.2

/-- A comment line of 1025 bytes: `#`, 1023 letters x and the newline. -/
def long_comment : List Byte := 35 :: List.replicate 1023 120 ++ [10]

/-- The header of a 1 x 1 frame with the long comment line after the tag. -/
def comment_header : List Byte := bytes "P5\n" ++ long_comment ++ bytes "1 1\n65535\n"

/-- Decoder output for a 1 x 1 frame with the long comment line in its header. -/
def comment_pgm : List Byte := comment_header ++ [1, 2]

/-- Decoder output for a 1 x 1 frame whose binary block has one byte only. -/
def short_pgm : List Byte := bytes "P5\n1 1\n65535\n" ++ [1]

/-- Decoder output whose header declares the width 4294967297, that is
2 ^ 32 + 1, and the height 1, followed by two bytes. -/
def overflow_width_pgm : List Byte := bytes "P5\n4294967297 1\n65535\n" ++ [1, 2]

/-- Decoder output for a 1 x 1 frame whose header declares the maximum value
4295032831, that is 2 ^ 32 + 65535, followed by two bytes. -/
def overflow_max_pgm : List Byte := bytes "P5\n1 1\n4295032831\n" ++ [1, 2]

/-- The first 1023 bytes of a multipliers line whose fourth number is written
with 997 leading zeros. -/
def zero_padded_head : List Byte :=
  bytes "Camera multipliers: 1 2 3 " ++ List.replicate 997 48

/-- Metadata output that consists of one multipliers line: the numbers 1, 2, 3
and, written with 997 leading zeros, 4. -/
def zero_padded_output : List Byte := zero_padded_head ++ bytes "4\n"

/-! ## Theorems -/

/-- Reading an address that no write of a fold touches gives the old value. -/
theorem foldl_write_untouched {α : Type} (addr val : α → Nat) (ps : List α) (m : Mem) (a : Nat)
    (h : ∀ q ∈ ps, addr q ≠ a) :
    (ps.foldl (fun m p => m.write (addr p) (val p)) m) a = m a := by
  induction ps generalizing m with
  | nil => rfl
  | cons p ps ih =>
    simp only [List.foldl_cons]
    rw [ih _ (fun q hq => h q (List.mem_cons_of_mem _ hq))]
    have hp : addr p ≠ a := h p (List.mem_cons_self _ _)
    simp [Mem.write, Ne.symm hp]

/-- After a fold of writes, an address written at least once, and always with
the same value, holds that value. -/
theorem foldl_write_read {α : Type} (addr val : α → Nat) (ps : List α) (m : Mem) (a v : Nat)
    (hex : ∃ p ∈ ps, addr p = a) (hall : ∀ q ∈ ps, addr q = a → val q = v) :
    (ps.foldl (fun m p => m.write (addr p) (val p)) m) a = v := by
  induction ps generalizing m with
  | nil => obtain ⟨p, hp, _⟩ := hex; cases hp
  | cons p ps ih =>
    simp only [List.foldl_cons]
    by_cases hlater : ∃ q ∈ ps, addr q = a
    · exact ih _ hlater (fun q hq => hall q (List.mem_cons_of_mem _ hq))
    · have hnone : ∀ q ∈ ps, addr q ≠ a := fun q hq hqa => hlater ⟨q, hq, hqa⟩
      rw [foldl_write_untouched addr val ps _ a hnone]
      obtain ⟨q, hq, hqa⟩ := hex
      rcases List.mem_cons.mp hq with rfl | hq
      · simp [Mem.write, hqa, hall q (List.mem_cons_self _ _) hqa]
      · exact absurd hqa (hnone q hq)

/-- The axes of the buffer `process` returns. -/
theorem process_dim (S : Stages) (self : HDRPlus) (init : Mem) :
    (self.process S init).dim =
      [⟨0, self.width, 3⟩, ⟨0, self.height, 3 * self.width⟩, ⟨0, 3, 1⟩] := by
  simp [HDRPlus.process, Buffer.alloc, dense_dims, Buffer.transpose, Func.realize]

/-- Every coordinate of the dense `(3, w, h)` allocation is visited by `realize`. -/
theorem mem_coords_planar (w h c x y : Nat) (hc : c < 3) (hx : x < w) (hy : y < h) :
    [c, x, y] ∈ coords (dense_dims 1 [3, w, h]) := by
  simp only [dense_dims, coords, List.mem_flatMap, List.mem_map, List.mem_range,
    List.mem_singleton]
  exact ⟨[x, y], ⟨[y], ⟨[], rfl, y, hy, by simp⟩, x, hx, by simp⟩, c, hc, by simp⟩

/-- Coordinates of the dense `(3, w, h)` allocation have three in-range entries. -/
theorem coords_planar_bounds (w h : Nat) (q : List Nat)
    (hq : q ∈ coords (dense_dims 1 [3, w, h])) :
    ∃ c x y, q = [c, x, y] ∧ c < 3 ∧ x < w ∧ y < h := by
  simp only [dense_dims, coords, List.mem_flatMap, List.mem_map, List.mem_range,
    List.mem_singleton] at hq
  obtain ⟨r1, ⟨r2, ⟨r3, rfl, y, hy, rfl⟩, x, hx, rfl⟩, c, hc, rfl⟩ := hq
  exact ⟨c, x, y, by simp, hc, hx, hy⟩

/-- Offsets in the dense `(3, w, h)` allocation. -/
theorem offset_planar (w h c x y : Nat) :
    offset_of (dense_dims 1 [3, w, h]) [c, x, y] = 3 * (y * w + x) + c := by
  simp only [dense_dims, offset_of, Nat.sub_zero]
  ring

/-- The planar offset determines the coordinate. -/
theorem offset_planar_inj (w c x y c' x' y' : Nat) (hc : c < 3) (hx : x < w)
    (hc' : c' < 3) (hx' : x' < w)
    (h : 3 * (y' * w + x') + c' = 3 * (y * w + x) + c) : c' = c ∧ x' = x ∧ y' = y := by
  have h1 : c' = c := by omega
  have h2 : x' + w * y' = x + w * y := by
    have e1 : y' * w = w * y' := Nat.mul_comm _ _
    have e2 : y * w = w * y := Nat.mul_comm _ _
    omega
  have hx1 : (x' + w * y') % w = x' := by
    rw [Nat.add_mul_mod_self_left]; exact Nat.mod_eq_of_lt hx'
  have hx2 : (x + w * y) % w = x := by
    rw [Nat.add_mul_mod_self_left]; exact Nat.mod_eq_of_lt hx
  have hw : 0 < w := by omega
  have hy1 : (x' + w * y') / w = y' := by
    rw [Nat.add_mul_div_left _ _ hw, Nat.div_eq_of_lt hx']; simp
  have hy2 : (x + w * y) / w = y := by
    rw [Nat.add_mul_div_left _ _ hw, Nat.div_eq_of_lt hx]; simp
  refine ⟨h1, ?_, ?_⟩
  · rw [← hx1, ← hx2, h2]
  · rw [← hy1, ← hy2, h2]

/-- After `realize`, the dense `(3, w, h)` allocation holds `f [c, x, y]` at
offset `3 * (y * w + x) + c`. -/
theorem realize_planar (f : Func) (init : Mem) (w h c x y : Nat)
    (hc : c < 3) (hx : x < w) (hy : y < h) :
    (f.realize (Buffer.alloc [3, w, h] init)).host (3 * (y * w + x) + c) = f [c, x, y] := by
  simp only [Func.realize, Buffer.alloc]
  apply foldl_write_read
  · exact ⟨[c, x, y], mem_coords_planar w h c x y hc hx hy, offset_planar w h c x y⟩
  · intro q hq hqa
    obtain ⟨c', x', y', rfl, hc', hx', _⟩ := coords_planar_bounds w h q hq
    rw [offset_planar] at hqa
    obtain ⟨rfl, rfl, rfl⟩ := offset_planar_inj w c x y c' x' y' hc hx hc' hx' hqa
    rfl

/-- The two transposes of `process` leave the memory as `realize` filled it. -/
theorem process_host (S : Stages) (self : HDRPlus) (init : Mem) :
    (self.process S init).host =
      ((self.finished S).realize (Buffer.alloc [3, self.width, self.height] init)).host := by
  simp [HDRPlus.process, Buffer.alloc, dense_dims, Buffer.transpose, Func.realize]

/-- C1: the buffer returned by `process` has axes (width, height, 3), the
channel axis last with stride 1; its element at (x, y, c) is the finishing
stage's element at (c, x, y) and sits at offset 3 * (y * width + x) + c, so the
three channel samples of a pixel are adjacent and in channel order. -/
theorem process_interleaved (S : Stages) (self : HDRPlus) (init : Mem) (x y c : Nat)
    (hx : x < self.width) (hy : y < self.height) (hc : c < 3) :
    (self.process S init).dimensions = 3 ∧
    (self.process S init).width = self.width ∧
    (self.process S init).height = self.height ∧
    (self.process S init).channels = 3 ∧
    (self.process S init).stride 2 = 1 ∧
    (self.process S init).stride 0 = 3 ∧
    (self.process S init).stride 1 = 3 * self.width ∧
    offset_of (self.process S init).dim [x, y, c] = 3 * (y * self.width + x) + c ∧
    (self.process S init).get [x, y, c] = self.finished S [c, x, y] ∧
    (self.process S init).host (3 * (y * self.width + x) + c) = self.finished S [c, x, y] := by
  have hoff : offset_of (self.process S init).dim [x, y, c] = 3 * (y * self.width + x) + c := by
    rw [process_dim]; simp only [offset_of, Nat.sub_zero]; ring
  have hval : (self.process S init).host (3 * (y * self.width + x) + c)
      = self.finished S [c, x, y] := by
    rw [process_host]; exact realize_planar _ init _ _ c x y hc hx hy
  refine ⟨?_, ?_, ?_, ?_, ?_, ?_, ?_, hoff, ?_, hval⟩
  · simp [Buffer.dimensions, process_dim]
  · simp [Buffer.width, Buffer.dimensions, Buffer.extent, process_dim]
  · simp [Buffer.height, Buffer.dimensions, Buffer.extent, process_dim]
  · simp [Buffer.channels, Buffer.dimensions, Buffer.extent, process_dim]
  · simp [Buffer.stride, process_dim]
  · simp [Buffer.stride, process_dim]
  · simp [Buffer.stride, process_dim]
  · rw [Buffer.get, hoff, hval]

/-- Witness for C1: shape (channel = 3, width = 2, height = 1) becomes
(width = 2, height = 1, channel = 3), and the sample of pixel x = 1, y = 0,
channel 2 is the finished value 210 at offset 5. -/
theorem process_interleaved_witness :
    (sample_hdr.process sample_stages fun _ => 0).width = 2 ∧
    (sample_hdr.process sample_stages fun _ => 0).height = 1 ∧
    (sample_hdr.process sample_stages fun _ => 0).channels = 3 ∧
    (sample_hdr.process sample_stages fun _ => 0).stride 2 = 1 ∧
    (sample_hdr.process sample_stages fun _ => 0).get [1, 0, 2] = 210 ∧
    (sample_hdr.process sample_stages fun _ => 0).host 5 = 210 := by
  have h := process_interleaved sample_stages sample_hdr (fun _ => 0) 1 0 2
    (by decide) (by decide) (by decide)
  obtain ⟨_, h1, h2, h3, h4, _, _, _, h5, h6⟩ := h
  exact ⟨h1, h2, h3, h4, h5, h6⟩

/-- The loop of `load_raws` stores frame `k` of the remaining names at
`data + k * (width * height)` and leaves the memory below `data` alone. -/
theorem load_raws_loop_ok (load_image : Decoder) (dir_path : String) (width height : Nat)
    (names : List String) (frames : Nat → Nat → Nat) (mem : Mem) (data : Nat)
    (hmul : width * height < 2 ^ 31)
    (hdec : ∀ (k : Nat) (hk : k < names.length) (mem : Mem) (data : Nat), ∃ mem1,
      load_image (dir_path ++ "/" ++ names[k]) mem data width height = some (.ok, mem1) ∧
      (∀ j, j < width * height → mem1 (data + j) = frames k j) ∧
      (∀ a, a < data ∨ data + width * height ≤ a → mem1 a = mem a)) :
    ∃ mem2, load_raws_loop load_image dir_path width height names mem data = some (true, mem2) ∧
      (∀ k j, k < names.length → j < width * height →
        mem2 (data + k * (width * height) + j) = frames k j) ∧
      (∀ a, a < data → mem2 a = mem a) := by
  induction names generalizing frames mem data with
  | nil =>
    refine ⟨mem, rfl, ?_, fun _ _ => rfl⟩
    intro k j hk
    simp at hk
  | cons name rest ih =>
    obtain ⟨mem1, hload, hin, hout⟩ := hdec 0 (by simp) mem data
    simp only [List.getElem_cons_zero] at hload
    have hrest : ∀ (k : Nat) (hk : k < rest.length) (mem : Mem) (data : Nat), ∃ mem1,
        load_image (dir_path ++ "/" ++ rest[k]) mem data width height = some (.ok, mem1) ∧
        (∀ j, j < width * height → mem1 (data + j) = frames (k + 1) j) ∧
        (∀ a, a < data ∨ data + width * height ≤ a → mem1 a = mem a) := by
      intro k hk m d
      have := hdec (k + 1) (by simp; omega) m d
      simpa using this
    obtain ⟨mem2, hloop, hfr, hlow⟩ :=
      ih (fun k => frames (k + 1)) mem1 (data + width * height) hrest
    refine ⟨mem2, ?_, ?_, ?_⟩
    · simp only [load_raws_loop, hload, int_mul, hmul, if_true, hloop]
    · intro k j hk hj
      cases k with
      | zero =>
        rw [Nat.zero_mul, Nat.add_zero, hlow _ (by omega)]
        exact hin j hj
      | succ k =>
        have hk1 : k < rest.length := by simpa using hk
        have := hfr k j hk1 hj
        rw [Nat.succ_mul]
        rw [← this]
        congr 1
        omega
    · intro a ha
      rw [hlow a (by omega)]
      exact hout a (Or.inl ha)

/-- C2: when every frame decodes, `load_raws` returns true with a stack of
extents (width, height, N) whose samples at offsets
[k * width * height, (k + 1) * width * height) are the decoded samples of
file k, for every k < N: as many frames as files, in the order of the input. -/
theorem load_raws_frames (load_image : Decoder) (init : Mem) (dir_path : String)
    (img_names : List String) (width height : Nat) (frames : Nat → Nat → Nat)
    (hsize : width * height * img_names.length < 2 ^ 31)
    (hdec : ∀ (k : Nat) (hk : k < img_names.length) (mem : Mem) (data : Nat), ∃ mem1,
      load_image (dir_path ++ "/" ++ img_names[k]) mem data width height = some (.ok, mem1) ∧
      (∀ j, j < width * height → mem1 (data + j) = frames k j) ∧
      (∀ a, a < data ∨ data + width * height ≤ a → mem1 a = mem a)) :
    ∃ imgs, HDRPlus.load_raws load_image init dir_path img_names width height
        = some (true, imgs) ∧
      imgs.dimensions = 3 ∧ imgs.width = width ∧ imgs.height = height ∧
      imgs.extent 2 = img_names.length ∧
      ∀ k j, k < img_names.length → j < width * height →
        imgs.host (k * (width * height) + j) = frames k j := by
  cases hn : img_names with
  | nil =>
    subst hn
    refine ⟨Buffer.alloc [width, height, 0] init, ?_, ?_⟩
    · simp [HDRPlus.load_raws, load_raws_loop]
    · simp [Buffer.alloc, dense_dims, Buffer.dimensions, Buffer.width, Buffer.height,
        Buffer.extent]
  | cons name rest =>
    have hpos : 0 < img_names.length := by simp [hn]
    have hmul : width * height < 2 ^ 31 :=
      lt_of_le_of_lt (Nat.le_mul_of_pos_right _ hpos) hsize
    obtain ⟨mem2, hloop, hfr, _⟩ :=
      load_raws_loop_ok load_image dir_path width height img_names frames
        (Buffer.alloc [width, height, img_names.length] init).host 0 hmul hdec
    rw [← hn]
    refine ⟨{ Buffer.alloc [width, height, img_names.length] init with host := mem2 }, ?_, ?_⟩
    · simp only [HDRPlus.load_raws, hloop]
    · refine ⟨?_, ?_, ?_, ?_, ?_⟩
      · simp [Buffer.alloc, dense_dims, Buffer.dimensions]
      · simp [Buffer.alloc, dense_dims, Buffer.dimensions, Buffer.width, Buffer.extent]
      · simp [Buffer.alloc, dense_dims, Buffer.dimensions, Buffer.height, Buffer.extent]
      · simp [Buffer.alloc, dense_dims, Buffer.extent]
      · intro k j hk hj
        have := hfr k j hk hj
        simpa using this

/-- Masking with `0xff` keeps the low byte. -/
theorem and_ff (v : Nat) : v &&& 0xff = v % 256 := by
  have := Nat.and_pow_two_sub_one_eq_mod v 8
  simpa using this

/-- Masking with `0xff00` and shifting down by 8 gives the second byte. -/
theorem and_ff00_shift (v : Nat) : (v &&& 0xff00) >>> 8 = (v / 256) % 256 := by
  have h : (v &&& 0xff00) >>> 8 = (v >>> 8) &&& 0xff := by
    apply Nat.eq_of_testBit_eq
    intro j
    have hc : (0xff00 : Nat).testBit (8 + j) = (0xff : Nat).testBit j := by
      rw [← Nat.testBit_shiftRight]; rfl
    simp only [Nat.testBit_shiftRight, Nat.testBit_and, hc]
  rw [h, and_ff, Nat.shiftRight_eq_div_pow]

/-- The value `swap_endian_16` computes, in arithmetic. -/
theorem swap_endian_16_eq (v : Nat) :
    swap_endian_16 v = (v % 256) * 256 + (v / 256) % 256 := by
  unfold swap_endian_16
  rw [and_ff, and_ff00_shift, Nat.shiftLeft_eq]
  have hlt : (v / 256) % 256 < 2 ^ 8 := by omega
  have := Nat.mul_add_lt_is_or hlt (v % 256)
  rw [Nat.mul_comm (v % 256) (2 ^ 8), ← this]
  omega

/-- Swapping a sample read on a little-endian host gives its big-endian value. -/
theorem swap_endian_16_bytes (b0 b1 : Byte) :
    swap_endian_16 (b0.val + 256 * b1.val) = 256 * b0.val + b1.val := by
  rw [swap_endian_16_eq]; omega

/-- A read of `count` samples from a long enough stream stores all of them,
each in host byte order, and nothing outside `[data, data + count)`. -/
theorem fread16_full (le : Bool) (count : Nat) (s : List Byte) (mem : Mem) (data : Nat)
    (h : 2 * count ≤ s.length) :
    (fread16 le count s mem data).1 = count ∧
    (∀ i, i < count → (fread16 le count s mem data).2 (data + i) =
      if le then (s.getD (2 * i) 0).val + 256 * (s.getD (2 * i + 1) 0).val
      else 256 * (s.getD (2 * i) 0).val + (s.getD (2 * i + 1) 0).val) ∧
    (∀ a, a < data ∨ data + count ≤ a → (fread16 le count s mem data).2 a = mem a) := by
  induction count generalizing s mem data with
  | zero => exact ⟨rfl, fun i hi => absurd hi (Nat.not_lt_zero i), fun _ _ => rfl⟩
  | succ n ih =>
    match s, h with
    | [], h => simp at h
    | [_], h => simp at h; omega
    | b0 :: b1 :: t, h =>
      have ht : 2 * n ≤ t.length := by simp at h; omega
      obtain ⟨h1, h2, h3⟩ := ih t
        (mem.write data (if le then b0.val + 256 * b1.val else 256 * b0.val + b1.val))
        (data + 1) ht
      simp only [fread16]
      refine ⟨by rw [h1], ?_, ?_⟩
      · intro i hi
        cases i with
        | zero =>
          have e := h3 data (Or.inl (Nat.lt_succ_self data))
          simp [e, Mem.write]
        | succ i =>
          have := h2 i (by omega)
          have e1 : data + (i + 1) = data + 1 + i := by omega
          have e2 : 2 * (i + 1) = 2 * i + 1 + 1 := by omega
          rw [e1, this, e2]
          simp [List.getD_cons_succ]
      · intro a ha
        rw [h3 a (by omega)]
        have hne : a ≠ data := by omega
        simp [Mem.write, hne]

/-- The indices the swapping loop visits are `0, 1, ..., height * width - 1`. -/
theorem swap_loop_indices (width height : Nat) :
    ((List.range height).flatMap fun y => (List.range width).map fun x => y * width + x)
      = List.range (height * width) := by
  induction height with
  | zero => simp
  | succ n ih =>
    rw [List.range_succ, List.flatMap_append, ih, Nat.succ_mul, List.range_add]
    simp

/-- Applying `g` in place to the cells `data + 0, ..., data + (n - 1)`. -/
theorem foldl_update_range (g : Nat → Nat) (data n : Nat) (mem : Mem) (a : Nat) :
    ((List.range n).foldl (fun m i => m.write (data + i) (g (m (data + i)))) mem) a
      = if data ≤ a ∧ a < data + n then g (mem a) else mem a := by
  induction n generalizing a with
  | zero =>
    rw [if_neg (by omega)]
    rfl
  | succ n ih =>
    rw [List.range_succ, List.foldl_append]
    simp only [List.foldl_cons, List.foldl_nil, Mem.write]
    by_cases ha : a = data + n
    · subst ha
      rw [if_pos rfl, ih]
      simp
    · rw [if_neg ha, ih]
      by_cases hlt : data ≤ a ∧ a < data + n
      · rw [if_pos hlt, if_pos ⟨hlt.1, by omega⟩]
      · rw [if_neg hlt, if_neg (by omega)]

/-- The swapping loop swaps each of the `width * height` samples once. -/
theorem swap_loop_eq (mem : Mem) (data width height a : Nat) :
    swap_loop mem data width height a
      = if data ≤ a ∧ a < data + width * height then swap_endian_16 (mem a) else mem a := by
  unfold swap_loop
  rw [swap_loop_indices, foldl_update_range, Nat.mul_comm height width]

/-- The call of `load_raw` on a stream whose header passes every check and
whose binary block is long enough: it succeeds, sample `i` is the big-endian
value of bytes `2 i` and `2 i + 1` of the block on either kind of host, and
the memory outside `[data, data + width * height)` is untouched. -/
theorem load_raw_ok (popen : String → Option (List Byte)) (le : Bool) (buf0 : List Byte)
    (filename : String) (mem : Mem) (data width height : Nat) (out header : List Byte)
    (l1 l2 l3 : Bool × List Byte × FILE)
    (hopen : popen ("dcraw -c -D -6 -W -g 1 1 " ++ filename) = some out)
    (h1 : PipeOpener.readLine buf0 1024 ⟨out, false⟩ = l1)
    (htag : sscanf_s255 l1.2.1 = some header)
    (hp5 : header = bytes "P5" ∨ header = bytes "p5")
    (h2 : PipeOpener.readLine l1.2.1 1024 l1.2.2 = l2)
    (hdim : sscanf_d_d l2.2.1 = some ((width : Int), (height : Int)))
    (h3 : PipeOpener.readLine l2.2.1 1024 l2.2.2 = l3)
    (hmax : sscanf_d l3.2.1 = some 65535)
    (hmul : width * height < 2 ^ 31)
    (hlen : 2 * (width * height) ≤ l3.2.2.rest.length) :
    ∃ mem1, load_raw popen le buf0 filename mem data width height = some (.ok, mem1) ∧
      (∀ i, i < width * height → mem1 (data + i) =
        256 * (l3.2.2.rest.getD (2 * i) 0).val + (l3.2.2.rest.getD (2 * i + 1) 0).val) ∧
      (∀ a, a < data ∨ data + width * height ≤ a → mem1 a = mem a) := by
  obtain ⟨hr1, hr2, hr3⟩ := fread16_full le (width * height) l3.2.2.rest mem data hlen
  have hmul1 : width * height < 2147483648 := by simpa using hmul
  cases le with
  | true =>
    refine ⟨swap_loop (fread16 true (width * height) l3.2.2.rest mem data).2 data width height,
      ?_, ?_, ?_⟩
    · simp [load_raw, hopen, h1, htag, hp5, h2, hdim, h3, hmax, int_mul, hmul1, hr1]
    · intro i hi
      rw [swap_loop_eq, if_pos ⟨by omega, by omega⟩, hr2 i hi]
      simp only [if_true]
      exact swap_endian_16_bytes _ _
    · intro a ha
      rw [swap_loop_eq, if_neg (by omega), hr3 a ha]
  | false =>
    refine ⟨(fread16 false (width * height) l3.2.2.rest mem data).2, ?_, ?_, hr3⟩
    · simp [load_raw, hopen, h1, htag, hp5, h2, hdim, h3, hmax, int_mul, hmul1, hr1]
    · intro i hi
      rw [hr2 i hi]
      simp

/-- C3: for every pair of bytes (b0, b1) at positions 2 i and 2 i + 1 of the
binary block, the sample `load_raw` stores at index i is the big-endian value
256 * b0 + b1 on a little-endian and on a big-endian host alike: the
little-endian host reads b0 + 256 * b1 and `swap_endian_16` turns it into
256 * b0 + b1, the big-endian host reads 256 * b0 + b1 at once. -/
theorem load_raw_big_endian (popen : String → Option (List Byte)) (le : Bool)
    (buf0 : List Byte) (filename : String) (mem : Mem) (data width height : Nat)
    (out header : List Byte) (l1 l2 l3 : Bool × List Byte × FILE) (i : Nat) (b0 b1 : Byte)
    (hopen : popen ("dcraw -c -D -6 -W -g 1 1 " ++ filename) = some out)
    (h1 : PipeOpener.readLine buf0 1024 ⟨out, false⟩ = l1)
    (htag : sscanf_s255 l1.2.1 = some header)
    (hp5 : header = bytes "P5" ∨ header = bytes "p5")
    (h2 : PipeOpener.readLine l1.2.1 1024 l1.2.2 = l2)
    (hdim : sscanf_d_d l2.2.1 = some ((width : Int), (height : Int)))
    (h3 : PipeOpener.readLine l2.2.1 1024 l2.2.2 = l3)
    (hmax : sscanf_d l3.2.1 = some 65535)
    (hmul : width * height < 2 ^ 31)
    (hlen : 2 * (width * height) ≤ l3.2.2.rest.length)
    (hi : i < width * height)
    (hb0 : l3.2.2.rest[2 * i]? = some b0) (hb1 : l3.2.2.rest[2 * i + 1]? = some b1) :
    (∃ mem1, load_raw popen le buf0 filename mem data width height = some (.ok, mem1) ∧
      mem1 (data + i) = 256 * b0.val + b1.val) ∧
    (fread16 true (width * height) l3.2.2.rest mem data).2 (data + i) = b0.val + 256 * b1.val ∧
    swap_endian_16 (b0.val + 256 * b1.val) = 256 * b0.val + b1.val ∧
    (fread16 false (width * height) l3.2.2.rest mem data).2 (data + i)
      = 256 * b0.val + b1.val := by
  have g0 : l3.2.2.rest.getD (2 * i) 0 = b0 := by simp [List.getD, hb0]
  have g1 : l3.2.2.rest.getD (2 * i + 1) 0 = b1 := by simp [List.getD, hb1]
  refine ⟨?_, ?_, swap_endian_16_bytes b0 b1, ?_⟩
  · obtain ⟨mem1, hload, hval, _⟩ := load_raw_ok popen le buf0 filename mem data width height
      out header l1 l2 l3 hopen h1 htag hp5 h2 hdim h3 hmax hmul hlen
    exact ⟨mem1, hload, by rw [hval i hi, g0, g1]⟩
  · have := (fread16_full true (width * height) l3.2.2.rest mem data hlen).2.1 i hi
    rw [this, g0, g1]; simp
  · have := (fread16_full false (width * height) l3.2.2.rest mem data hlen).2.1 i hi
    rw [this, g0, g1]; simp

/-- Witness for C3: the 1 x 1 frame with block bytes 0x01 0x02 on a
little-endian host. -/
theorem load_raw_big_endian_witness :
    (∃ mem1, load_raw (fun _ => some sample_pgm) true [] "a.CR2" (fun _ => 0) 0 1 1
        = some (.ok, mem1) ∧ mem1 (0 + 0) = 256 * (1 : Byte).val + (2 : Byte).val) ∧
    swap_endian_16 ((1 : Byte).val + 256 * (2 : Byte).val)
      = 256 * (1 : Byte).val + (2 : Byte).val :=
  have h := load_raw_big_endian (fun _ => some sample_pgm) true [] "a.CR2" (fun _ => 0) 0 1 1
    sample_pgm (bytes "P5") _ _ _ 0 1 2 rfl rfl (by decide) (Or.inl rfl) rfl (by decide) rfl
    (by decide) (by decide) (by decide) (by decide) (by decide) (by decide)
  ⟨h.1, h.2.2.1⟩

/-- Counterexample to C4 as stated: on a little-endian host the block
0x01 0x02 decodes to 0x0102, which is not 0x0201. -/
theorem load_raw_0201_counterexample :
    (load_raw (fun _ => some sample_pgm) true [] "a.CR2" (fun _ => 0) 0 1 1).map
        (fun r => (r.1, r.2 0)) = some (.ok, 0x0102) ∧
    (0x0102 : Nat) ≠ 0x0201 := by
  decide

/-- C4, amended: on a little-endian host, a 1 x 1 frame whose binary block
starts with the bytes 0x01, 0x02 decodes to the sample value 0x0102. -/
theorem load_raw_sample_0102 (popen : String → Option (List Byte))
    (buf0 : List Byte) (filename : String) (mem : Mem) (data : Nat)
    (out header tail : List Byte) (l1 l2 l3 : Bool × List Byte × FILE)
    (hopen : popen ("dcraw -c -D -6 -W -g 1 1 " ++ filename) = some out)
    (h1 : PipeOpener.readLine buf0 1024 ⟨out, false⟩ = l1)
    (htag : sscanf_s255 l1.2.1 = some header)
    (hp5 : header = bytes "P5" ∨ header = bytes "p5")
    (h2 : PipeOpener.readLine l1.2.1 1024 l1.2.2 = l2)
    (hdim : sscanf_d_d l2.2.1 = some (1, 1))
    (h3 : PipeOpener.readLine l2.2.1 1024 l2.2.2 = l3)
    (hmax : sscanf_d l3.2.1 = some 65535)
    (hblock : l3.2.2.rest = 0x01 :: 0x02 :: tail) :
    ∃ mem1, load_raw popen true buf0 filename mem data 1 1 = some (.ok, mem1) ∧
      mem1 data = 0x0102 := by
  obtain ⟨mem1, hload, hval, _⟩ := load_raw_ok popen true buf0 filename mem data 1 1
    out header l1 l2 l3 hopen h1 htag hp5 h2 (by simpa using hdim) h3 hmax (by decide)
    (by rw [hblock]; simp)
  refine ⟨mem1, hload, ?_⟩
  have := hval 0 (by decide)
  rw [hblock] at this
  simpa using this

/-- Witness for the amended C4: a stream with a lower-case tag and a comment line. -/
theorem load_raw_sample_0102_witness :
    ∃ mem1, load_raw (fun _ => some sample_pgm_comment) true [] "a.CR2" (fun _ => 0) 5 1 1
        = some (.ok, mem1) ∧ mem1 5 = 0x0102 :=
  load_raw_sample_0102 (fun _ => some sample_pgm_comment) [] "a.CR2" (fun _ => 0) 5
    sample_pgm_comment (bytes "p5") [7] _ _ _ rfl rfl (by decide) (Or.inr rfl) rfl (by decide)
    rfl (by decide) (by decide)

/-- When the tag is valid and the width or height that `%d` has stored
differs from the expected one, `load_raw` fails with the width error if the
width differs and with the height error otherwise, whatever follows in the
stream; the memory is returned as it was. -/
theorem load_raw_dimension_mismatch (popen : String → Option (List Byte)) (le : Bool)
    (buf0 : List Byte) (filename : String) (mem : Mem) (data width height : Nat)
    (out header : List Byte) (l1 l2 : Bool × List Byte × FILE) (in_width in_height : Int)
    (hopen : popen ("dcraw -c -D -6 -W -g 1 1 " ++ filename) = some out)
    (h1 : PipeOpener.readLine buf0 1024 ⟨out, false⟩ = l1)
    (htag : sscanf_s255 l1.2.1 = some header)
    (hp5 : header = bytes "P5" ∨ header = bytes "p5")
    (h2 : PipeOpener.readLine l1.2.1 1024 l1.2.2 = l2)
    (hdim : sscanf_d_d l2.2.1 = some (in_width, in_height))
    (hne : in_width ≠ (width : Int) ∨ in_height ≠ (height : Int)) :
    load_raw popen le buf0 filename mem data width height
      = some (.error (if in_width ≠ (width : Int) then .wrong_width else .wrong_height), mem) := by
  by_cases hw : in_width = (width : Int)
  · have hh : in_height ≠ (height : Int) := by
      rcases hne with h | h
      · exact absurd hw h
      · exact h
    simp [load_raw, hopen, h1, htag, hp5, h2, hdim, hw, hh]
  · simp [load_raw, hopen, h1, htag, hp5, h2, hdim, hw]

/-- Example: a 2 x 1 frame where a 1 x 1 frame is expected. -/
theorem load_raw_dimension_mismatch_witness :
    load_raw (fun _ => some sample_pgm_wide) true [] "a.CR2" (fun _ => 0) 0 1 1
      = some (.error .wrong_width, fun _ => 0) := by
  have h := load_raw_dimension_mismatch (fun _ => some sample_pgm_wide) true [] "a.CR2"
    (fun _ => 0) 0 1 1 sample_pgm_wide (bytes "P5") _ _ 2 1 rfl rfl (by decide) (Or.inl rfl) rfl
    (by decide) (Or.inl (by decide))
  simpa using h

/-- When the tag is valid, the dimensions are the expected ones and the
maximum sample value that `%d` has stored is not 65535, `load_raw` fails with
the bit-depth error and the memory is returned as it was: nothing of the block
is read into it. -/
theorem load_raw_bit_depth (popen : String → Option (List Byte)) (le : Bool)
    (buf0 : List Byte) (filename : String) (mem : Mem) (data width height : Nat)
    (out header : List Byte) (l1 l2 l3 : Bool × List Byte × FILE) (maxval : Int)
    (hopen : popen ("dcraw -c -D -6 -W -g 1 1 " ++ filename) = some out)
    (h1 : PipeOpener.readLine buf0 1024 ⟨out, false⟩ = l1)
    (htag : sscanf_s255 l1.2.1 = some header)
    (hp5 : header = bytes "P5" ∨ header = bytes "p5")
    (h2 : PipeOpener.readLine l1.2.1 1024 l1.2.2 = l2)
    (hdim : sscanf_d_d l2.2.1 = some ((width : Int), (height : Int)))
    (h3 : PipeOpener.readLine l2.2.1 1024 l2.2.2 = l3)
    (hmax : sscanf_d l3.2.1 = some maxval)
    (hne : maxval ≠ 65535) :
    load_raw popen le buf0 filename mem data width height
      = some (.error .invalid_bit_depth, mem) := by
  simp [load_raw, hopen, h1, htag, hp5, h2, hdim, h3, hmax, hne]

/-- Example: a header with maximum value 255. -/
theorem load_raw_bit_depth_witness :
    load_raw (fun _ => some sample_pgm_8bit) true [] "a.CR2" (fun _ => 0) 0 1 1
      = some (.error .invalid_bit_depth, fun _ => 0) :=
  load_raw_bit_depth (fun _ => some sample_pgm_8bit) true [] "a.CR2" (fun _ => 0) 0 1 1
    sample_pgm_8bit (bytes "P5") _ _ _ 255 rfl rfl (by decide) (Or.inl rfl) rfl (by decide)
    rfl (by decide) (by decide)

/-- Within the range of `int`, `%d` stores the number written. -/
theorem int_of_decimal_of_range (v : Int) (h1 : -2147483648 ≤ v) (h2 : v ≤ 2147483647) :
    int_of_decimal v = v := by
  unfold int_of_decimal
  simp only
  split_ifs <;> omega

/-- C5, at a failing input: the decoder output declares the width 4294967297
for a frame that is expected to be 1 x 1. The declared width differs from the
expected one, so by C5 the call fails with the width error and writes no
sample; yet `%d` leaves 1 in `in_width`, the comparison with the expected
width passes, the call succeeds and the sample 0x0102 is in the caller's
buffer. In the same way the declared width 4294972608 is stored as 5312. -/
theorem load_raw_width_overflow :
    overflow_width_pgm = bytes "P5\n4294967297 1\n65535\n" ++ [1, 2] ∧
    sscanf_d_d (bytes "4294967297 1\n") = some (1, 1) ∧
    sscanf_d_d (bytes "4294972608 2988\n") = some (5312, 2988) ∧
    (load_raw (fun _ => some overflow_width_pgm) true [] "a.CR2" (fun _ => 0) 0 1 1).map
      (fun r => (r.1, r.2 0)) = some (.ok, 0x0102) ∧
    load_raw (fun _ => some overflow_width_pgm) true [] "a.CR2" (fun _ => 0) 0 1 1
      ≠ some (.error .wrong_width, fun _ => 0) := by
  have h : (load_raw (fun _ => some overflow_width_pgm) true [] "a.CR2" (fun _ => 0) 0 1 1).map
      (fun r => (r.1, r.2 0)) = some (.ok, 0x0102) := by decide
  refine ⟨rfl, by decide, by decide, h, ?_⟩
  intro h1
  rw [h1] at h
  simp at h

/-- C6, at a failing input: the decoder output for a 1 x 1 frame declares the
maximum value 4295032831. It is not 65535, so by C6 the call fails with the
bit-depth error and reads nothing into the caller's buffer; yet `%d` leaves
65535 in `maxval`, the comparison passes, the call succeeds and the sample
0x0102 is in the caller's buffer. -/
theorem load_raw_max_value_overflow :
    overflow_max_pgm = bytes "P5\n1 1\n4295032831\n" ++ [1, 2] ∧
    sscanf_d (bytes "4295032831\n") = some 65535 ∧
    (load_raw (fun _ => some overflow_max_pgm) true [] "a.CR2" (fun _ => 0) 0 1 1).map
      (fun r => (r.1, r.2 0)) = some (.ok, 0x0102) ∧
    load_raw (fun _ => some overflow_max_pgm) true [] "a.CR2" (fun _ => 0) 0 1 1
      ≠ some (.error .invalid_bit_depth, fun _ => 0) := by
  have h : (load_raw (fun _ => some overflow_max_pgm) true [] "a.CR2" (fun _ => 0) 0 1 1).map
      (fun r => (r.1, r.2 0)) = some (.ok, 0x0102) := by decide
  refine ⟨rfl, by decide, h, ?_⟩
  intro h1
  rw [h1] at h
  simp at h

/-- The sentinel-protected value is positive. -/
theorem sentinel_protected_pos (x : ℚ) : 0 < sentinel_protected x := by
  unfold sentinel_protected
  split_ifs with h
  · norm_num
  · exact lt_of_not_ge h

/-- The denominator of the specification is positive. -/
theorem normalisation_denominator_pos (r g0 g1 b : ℚ) :
    0 < normalisation_denominator r g0 g1 b := by
  unfold normalisation_denominator
  exact lt_min (sentinel_protected_pos r) (lt_min (sentinel_protected_pos g0)
    (lt_min (sentinel_protected_pos g1) (sentinel_protected_pos b)))

/-- The minimum the code computes is the denominator of the specification. -/
theorem normalise_min_eq (r g0 g1 b : ℚ) :
    min (min (if r > 0 then r else 100000) (if g0 > 0 then g0 else 100000))
        (min (if g1 > 0 then g1 else 100000) (if b > 0 then b else 100000))
      = normalisation_denominator r g0 g1 b := by
  have e : ∀ x : ℚ, (if x > 0 then x else 100000) = sentinel_protected x := by
    intro x
    unfold sentinel_protected
    by_cases h : x > 0
    · rw [if_pos h, if_neg (not_le.mpr h)]
    · rw [if_neg h, if_pos (not_lt.mp h)]
  rw [e, e, e, e, normalisation_denominator, min_assoc]

/-- The code's normalisation, in the words of the specification. -/
theorem normalise_eq (r g0 g1 b : ℚ) :
    read_white_balance_normalise r g0 g1 b =
      ⟨max 1 (r / normalisation_denominator r g0 g1 b),
       max 1 (g0 / normalisation_denominator r g0 g1 b),
       max 1 (g1 / normalisation_denominator r g0 g1 b),
       max 1 (b / normalisation_denominator r g0 g1 b)⟩ := by
  simp only [read_white_balance_normalise, normalise_min_eq]

/-- Four values that are at least 1, one of them 1, have minimum 1. -/
theorem min_four_eq_one (a b c d : ℚ) (ha : 1 ≤ a) (hb : 1 ≤ b) (hc : 1 ≤ c) (hd : 1 ≤ d)
    (h : a = 1 ∨ b = 1 ∨ c = 1 ∨ d = 1) : min (min a b) (min c d) = 1 := by
  apply le_antisymm
  · rcases h with h | h | h | h
    · exact le_trans (le_trans (min_le_left _ _) (min_le_left _ _)) (le_of_eq h)
    · exact le_trans (le_trans (min_le_left _ _) (min_le_right _ _)) (le_of_eq h)
    · exact le_trans (le_trans (min_le_right _ _) (min_le_left _ _)) (le_of_eq h)
    · exact le_trans (le_trans (min_le_right _ _) (min_le_right _ _)) (le_of_eq h)
  · exact le_min (le_min ha hb) (le_min hc hd)

/-- A value that is not positive is normalised to 1. -/
theorem max_one_div_of_nonpos (x m : ℚ) (hx : x ≤ 0) (hm : 0 < m) : max 1 (x / m) = 1 := by
  apply max_eq_left
  exact le_trans (div_nonpos_of_nonpos_of_nonneg hx (le_of_lt hm)) zero_le_one

/-- Among four positive values, one is the denominator. -/
theorem denominator_choice (r g0 g1 b : ℚ) (hr : 0 < r) (hg0 : 0 < g0) (hg1 : 0 < g1)
    (hb : 0 < b) :
    normalisation_denominator r g0 g1 b = r ∨ normalisation_denominator r g0 g1 b = g0 ∨
    normalisation_denominator r g0 g1 b = g1 ∨ normalisation_denominator r g0 g1 b = b := by
  have e : ∀ x : ℚ, 0 < x → sentinel_protected x = x := by
    intro x hx
    unfold sentinel_protected
    rw [if_neg (not_le.mpr hx)]
  unfold normalisation_denominator
  rw [e r hr, e g0 hg0, e g1 hg1, e b hb]
  rcases min_choice r (min g0 (min g1 b)) with h | h
  · exact Or.inl h
  · rw [h]
    rcases min_choice g0 (min g1 b) with h | h
    · exact Or.inr (Or.inl h)
    · rw [h]
      rcases min_choice g1 b with h | h
      · exact Or.inr (Or.inr (Or.inl h))
      · exact Or.inr (Or.inr (Or.inr h))

/-- The normalisation of any four numbers is a normalised white balance. -/
theorem normalise_normalised (r g0 g1 b : ℚ) :
    (read_white_balance_normalise r g0 g1 b).normalised := by
  rw [normalise_eq]
  have hm := normalisation_denominator_pos r g0 g1 b
  refine ⟨le_max_left _ _, le_max_left _ _, le_max_left _ _, le_max_left _ _, ?_⟩
  apply min_four_eq_one _ _ _ _ (le_max_left _ _) (le_max_left _ _) (le_max_left _ _)
    (le_max_left _ _)
  by_cases hr : r ≤ 0
  · exact Or.inl (max_one_div_of_nonpos r _ hr hm)
  by_cases hg0 : g0 ≤ 0
  · exact Or.inr (Or.inl (max_one_div_of_nonpos g0 _ hg0 hm))
  by_cases hg1 : g1 ≤ 0
  · exact Or.inr (Or.inr (Or.inl (max_one_div_of_nonpos g1 _ hg1 hm)))
  by_cases hb : b ≤ 0
  · exact Or.inr (Or.inr (Or.inr (max_one_div_of_nonpos b _ hb hm)))
  have key : ∀ x : ℚ, normalisation_denominator r g0 g1 b = x →
      max 1 (x / normalisation_denominator r g0 g1 b) = 1 := by
    intro x hx
    rw [← hx, div_self (ne_of_gt hm), max_self]
  rcases denominator_choice r g0 g1 b (not_le.mp hr) (not_le.mp hg0) (not_le.mp hg1)
    (not_le.mp hb) with h | h | h | h
  · exact Or.inl (key r h)
  · exact Or.inr (Or.inl (key g0 h))
  · exact Or.inr (Or.inr (Or.inl (key g1 h)))
  · exact Or.inr (Or.inr (Or.inr (key b h)))

/-- The default white balance (2, 1, 2, 1) is normalised. -/
theorem default_normalised : (⟨2, 1, 2, 1⟩ : WhiteBalance).normalised := by
  refine ⟨?_, ?_, ?_, ?_, ?_⟩ <;> norm_num

/-- Whatever the loop of `read_white_balance` returns is normalised. -/
theorem read_white_balance_loop_normalised (k : Nat) (buf : List Byte) (f : FILE) :
    (read_white_balance_loop k buf f).normalised := by
  induction k generalizing buf f with
  | zero => exact default_normalised
  | succ k ih =>
    unfold read_white_balance_loop
    split_ifs
    · exact default_normalised
    · dsimp only
      split
      · exact normalise_normalised _ _ _ _
      · exact ih _ _

/-- C7: for all four raw multipliers, of any sign and zero included, the
white balance built from them has every component at least 1 and its least
component exactly 1; so has the default (2, 1, 2, 1), and so has whatever
`read_white_balance` returns. -/
theorem read_white_balance_normalised :
    (∀ r g0 g1 b : ℚ, (read_white_balance_normalise r g0 g1 b).normalised) ∧
    (⟨2, 1, 2, 1⟩ : WhiteBalance).normalised ∧
    (∀ (popen : String → Option (List Byte)) (buf0 : List Byte) (file_path : String),
      (read_white_balance popen buf0 file_path).normalised) := by
  refine ⟨normalise_normalised, default_normalised, ?_⟩
  intro popen buf0 file_path
  unfold read_white_balance
  split
  · exact default_normalised
  · exact read_white_balance_loop_normalised _ _ _

/-- C8: the normalisation returns (max(1, r/m), max(1, g0/m), max(1, g1/m),
max(1, b/m)) where m, the least of the four values after each value <= 0 has
been replaced by 100000, is positive; raw (2, 1, 2, 1) gives (2, 1, 2, 1) and
raw (0, 1, 2, 1) gives (1, 1, 2, 1). -/
theorem read_white_balance_normalise_spec :
    (∀ r g0 g1 b : ℚ,
      0 < normalisation_denominator r g0 g1 b ∧
      read_white_balance_normalise r g0 g1 b =
        ⟨max 1 (r / normalisation_denominator r g0 g1 b),
         max 1 (g0 / normalisation_denominator r g0 g1 b),
         max 1 (g1 / normalisation_denominator r g0 g1 b),
         max 1 (b / normalisation_denominator r g0 g1 b)⟩) ∧
    read_white_balance_normalise 2 1 2 1 = ⟨2, 1, 2, 1⟩ ∧
    read_white_balance_normalise 0 1 2 1 = ⟨1, 1, 2, 1⟩ ∧
    normalisation_denominator 0 1 2 1 = 1 := by
  refine ⟨fun r g0 g1 b => ⟨normalisation_denominator_pos r g0 g1 b, normalise_eq r g0 g1 b⟩,
    ?_, ?_, ?_⟩
  · norm_num [read_white_balance_normalise]
  · norm_num [read_white_balance_normalise]
  · norm_num [normalisation_denominator, sentinel_protected]

/-- What `fgets_read` returns from an empty stream. -/
theorem fgets_read_nil (n : Nat) :
    fgets_read (n + 1) [] = ([], [], true) := rfl

/-- With room for a character, `fgets_read` takes at least one from a
stream that has one, and leaves at most the rest. -/
theorem fgets_read_cons (n : Nat) (c : Byte) (s : List Byte) :
    (fgets_read (n + 1) (c :: s)).1 ≠ [] ∧ (fgets_read (n + 1) (c :: s)).2.1.length ≤ s.length := by
  induction n generalizing c s with
  | zero =>
    by_cases h : c = 10
    · simp [fgets_read, h]
    · simp [fgets_read, h]
  | succ n ih =>
    by_cases h : c = 10
    · simp [fgets_read, h]
    · cases s with
      | nil => simp [fgets_read, h]
      | cons d t =>
        have := (ih d t).2
        rw [fgets_read]
        simp only [h, if_false]
        refine ⟨by simp, ?_⟩
        simp only [List.length_cons]
        omega

/-- A run of `n` characters other than a newline fills one `fgets_read` of size `n`. -/
theorem fgets_read_replicate (n : Nat) (c : Byte) (hc : c ≠ 10) (t : List Byte) :
    fgets_read n (List.replicate n c ++ t) = (List.replicate n c, t, false) := by
  induction n with
  | zero => simp [fgets_read]
  | succ n ih => simp [List.replicate_succ, fgets_read, hc, ih]

/-- The call of `readLine` on a stream that starts with a run of `n + 1`
characters, neither newline nor `#`, into a buffer of `n + 2` characters. -/
theorem readLine_replicate (n : Nat) (c : Byte) (hc : c ≠ 10) (hc1 : c ≠ 35)
    (buf t : List Byte) (e : Bool) :
    PipeOpener.readLine buf (n + 2) ⟨List.replicate (n + 1) c ++ t, e⟩
      = (true, List.replicate (n + 1) c, ⟨t, e⟩) := by
  have h : fgets buf (n + 2) ⟨List.replicate (n + 1) c ++ t, e⟩
      = (true, List.replicate (n + 1) c, ⟨t, e⟩) := by
    have e1 : n + 2 - 1 = n + 1 := by omega
    simp only [fgets, e1, fgets_read_replicate (n + 1) c hc t]
    simp [List.replicate_succ]
  rw [PipeOpener.readLine, readLine_loop, h]
  simp [List.replicate_succ, hc1]

/-- A text without a newline, followed by a newline, is one line. -/
theorem stream_lines_single (xs : List Byte) (h : ∀ c ∈ xs, c ≠ 10) :
    stream_lines (xs ++ [10]) = [xs ++ [10]] := by
  induction xs with
  | nil => simp [stream_lines]
  | cons c t ih =>
    have hc : c ≠ 10 := h c (List.mem_cons_self _ _)
    have ht := ih (fun d hd => h d (List.mem_cons_of_mem _ hd))
    simp [stream_lines, hc, ht]

set_option maxRecDepth 8000 in
/-- C9, at a failing input: the metadata output is one line, which does not
match (it starts with 1023 letters x), so by C9 the result is the default
(2, 1, 2, 1); yet `read_white_balance` returns (1, 1, 1, 1): `readLine` hands
over the first 1023 bytes of the line and then the rest of it as if it were a
line of its own, and that rest matches. -/
theorem read_white_balance_long_line :
    stream_lines long_line_output = [long_line_output] ∧
    sscanf_camera_multipliers long_line_output = none ∧
    read_white_balance (fun _ => some long_line_output) [] "a.CR2" = ⟨1, 1, 1, 1⟩ ∧
    (⟨1, 1, 1, 1⟩ : WhiteBalance) ≠ ⟨2, 1, 2, 1⟩ := by
  have hshape : long_line_output
      = List.replicate 1023 120 ++ bytes "Camera multipliers: 1 1 1 1\n" := by
    simp only [long_line_output, long_line, List.append_assoc]
    rfl
  have hx : scan_camera_multipliers (List.replicate 1023 120) = none := by decide
  have hcm : scan_camera_multipliers (bytes "Camera multipliers: 1 1 1 1\n")
      = some (⟨false, 1, 0⟩, ⟨false, 1, 0⟩, ⟨false, 1, 0⟩, ⟨false, 1, 0⟩) := by decide
  have hr1 : PipeOpener.readLine [] 1024 ⟨long_line_output, false⟩
      = (true, List.replicate 1023 120, ⟨bytes "Camera multipliers: 1 1 1 1\n", false⟩) := by
    rw [hshape]
    exact readLine_replicate 1022 120 (by decide) (by decide) [] _ false
  have hr2 : PipeOpener.readLine (List.replicate 1023 120) 1024
      ⟨bytes "Camera multipliers: 1 1 1 1\n", false⟩
      = (true, bytes "Camera multipliers: 1 1 1 1\n", ⟨[], false⟩) := by decide
  have hloop : ∀ k, read_white_balance_loop (k + 2) [] ⟨long_line_output, false⟩
      = ⟨1, 1, 1, 1⟩ := by
    intro k
    rw [read_white_balance_loop]
    rw [if_neg (by simp), hr1]
    simp only [sscanf_camera_multipliers, hx]
    rw [read_white_balance_loop]
    rw [if_neg (by simp), hr2]
    simp only [sscanf_camera_multipliers, hcm]
    norm_num [read_white_balance_normalise, Decimal.value]
  refine ⟨?_, ?_, ?_, ?_⟩
  · apply stream_lines_single
    intro c hc
    simp only [long_line, List.mem_append, List.mem_replicate] at hc
    rcases hc with ⟨_, rfl⟩ | hc
    · decide
    · revert c
      decide
  · have hcons : long_line_output = 120 :: (List.replicate 1022 120
        ++ bytes "Camera multipliers: 1 1 1 1\n") := by
      rw [hshape]; rfl
    have : scan_camera_multipliers long_line_output = none := by
      rw [hcons]; rfl
    simp only [sscanf_camera_multipliers, this]
  · exact hloop long_line_output.length
  · intro h
    have := congrArg WhiteBalance.r h
    norm_num at this

/-- C10: the constructor succeeds exactly when the stack has three axes and
at least 2 frames along axis 2; a stack with exactly 1 frame fails it; the
object built holds the stack and has the stack's extents along axes 0 and 1
as width and height. -/
theorem HDRPlus_new_iff (imgs : Buffer) (bp wp : Nat) (wb : WhiteBalance) (c g : ℚ) :
    ((HDRPlus.new imgs bp wp wb c g).isSome = true ↔
      (imgs.dimensions = 3 ∧ imgs.extent 2 ≥ 2)) ∧
    (imgs.extent 2 = 1 → HDRPlus.new imgs bp wp wb c g = none) ∧
    (∀ self, HDRPlus.new imgs bp wp wb c g = some self →
      self.imgs = imgs ∧ self.width = imgs.extent 0 ∧ self.height = imgs.extent 1) := by
  refine ⟨?_, ?_, ?_⟩
  · unfold HDRPlus.new
    by_cases h3 : imgs.dimensions = 3
    · by_cases h2 : imgs.extent 2 ≥ 2
      · simp [h3, h2]
      · simp [h3, h2]
    · simp [h3]
  · intro h1
    unfold HDRPlus.new
    by_cases h3 : imgs.dimensions = 3
    · simp [h3, h1]
    · simp [h3]
  · intro self hself
    unfold HDRPlus.new at hself
    by_cases h3 : imgs.dimensions = 3
    · by_cases h2 : imgs.extent 2 ≥ 2
      · simp [h3, h2] at hself
        subst hself
        simp [Buffer.width, Buffer.height, h3]
      · simp [h3, h2] at hself
    · simp [h3] at hself

/-- Witness for C10: a stack of two frames is accepted, a stack of one frame
is refused. -/
theorem HDRPlus_new_witness :
    (HDRPlus.new sample_stack 2050 15464 ⟨2, 1, 2, 1⟩ (38 / 10) (11 / 10)).isSome = true ∧
    HDRPlus.new single_frame_stack 2050 15464 ⟨2, 1, 2, 1⟩ (38 / 10) (11 / 10) = none :=
  ⟨(HDRPlus_new_iff sample_stack 2050 15464 ⟨2, 1, 2, 1⟩ (38 / 10) (11 / 10)).1.2
      ⟨by decide, by decide⟩,
   (HDRPlus_new_iff single_frame_stack 2050 15464 ⟨2, 1, 2, 1⟩ (38 / 10) (11 / 10)).2.1
      (by decide)⟩

/-- Witness for C2: two 1 x 1 frames, decoded by `load_raw` on a
little-endian host, land in the stack in the order of the file names. -/
theorem load_raws_frames_witness :
    ∃ imgs, HDRPlus.load_raws (load_raw sample_popen true []) (fun _ => 0) "d" ["a", "b"] 1 1
        = some (true, imgs) ∧
      imgs.dimensions = 3 ∧ imgs.width = 1 ∧ imgs.height = 1 ∧ imgs.extent 2 = 2 ∧
      imgs.host 0 = 0x0102 ∧ imgs.host 1 = 0x0304 := by
  have hdec : ∀ (k : Nat) (hk : k < ["a", "b"].length) (mem : Mem) (data : Nat), ∃ mem1,
      load_raw sample_popen true [] ("d" ++ "/" ++ ["a", "b"][k]) mem data 1 1
        = some (.ok, mem1) ∧
      (∀ j, j < 1 * 1 → mem1 (data + j) = sample_frames k j) ∧
      (∀ a, a < data ∨ data + 1 * 1 ≤ a → mem1 a = mem a) := by
    intro k hk mem data
    match k, hk with
    | 0, _ =>
      obtain ⟨mem1, hload, hval, hout⟩ := load_raw_ok sample_popen true [] "d/a" mem data 1 1
        sample_pgm (bytes "P5") _ _ _ (by decide) rfl (by decide) (Or.inl rfl) rfl (by decide)
        rfl (by decide) (by decide) (by decide)
      refine ⟨mem1, hload, ?_, hout⟩
      intro j hj
      have hj0 : j = 0 := by omega
      subst hj0
      rw [hval 0 (by decide)]
      decide
    | 1, _ =>
      obtain ⟨mem1, hload, hval, hout⟩ := load_raw_ok sample_popen true [] "d/b" mem data 1 1
        sample_pgm_second (bytes "P5") _ _ _ (by decide) rfl (by decide) (Or.inl rfl) rfl
        (by decide) rfl (by decide) (by decide) (by decide)
      refine ⟨mem1, hload, ?_, hout⟩
      intro j hj
      have hj0 : j = 0 := by omega
      subst hj0
      rw [hval 0 (by decide)]
      decide
    | k + 2, h => exact absurd h (by simp)
  obtain ⟨imgs, hload, hd, hw, hh, hn, hfr⟩ :=
    load_raws_frames (load_raw sample_popen true []) (fun _ => 0) "d" ["a", "b"] 1 1
      sample_frames (by decide) hdec
  exact ⟨imgs, hload, hd, hw, hh, hn, hfr 0 0 (by decide) (by decide),
    hfr 1 0 (by decide) (by decide)⟩

/-! ### The iteration bounds are never reached -/

/-- The stream `fgets_read` leaves is no longer than the one it was given. -/
theorem fgets_read_length_le (n : Nat) (s : List Byte) :
    (fgets_read n s).2.1.length ≤ s.length := by
  induction n generalizing s with
  | zero => simp [fgets_read]
  | succ n ih =>
    cases s with
    | nil => simp [fgets_read]
    | cons c t =>
      have := ih t
      by_cases h : c = 10
      · simp [fgets_read, h]
      · rw [fgets_read]
        simp only [h, if_false, List.length_cons]
        omega

/-- When `fgets_read` stores a character, the stream it leaves is shorter. -/
theorem fgets_read_length_lt (n : Nat) (s : List Byte) (h : (fgets_read n s).1 ≠ []) :
    (fgets_read n s).2.1.length < s.length := by
  cases n with
  | zero => simp [fgets_read] at h
  | succ n =>
    cases s with
    | nil => simp [fgets_read] at h
    | cons c t =>
      have := (fgets_read_cons n c t).2
      simp only [List.length_cons]
      omega

/-- After `fgets` the stream is no longer than before; if the status is
non-null and a character was stored it is shorter; if the status is null the
end-of-file indicator is set. -/
theorem fgets_progress (buf : List Byte) (maxlen : Nat) (f : FILE) :
    (fgets buf maxlen f).2.2.rest.length ≤ f.rest.length ∧
    ((fgets buf maxlen f).1 = true → (fgets buf maxlen f).2.1 ≠ [] →
      (fgets buf maxlen f).2.2.rest.length < f.rest.length) ∧
    ((fgets buf maxlen f).1 = false → (fgets buf maxlen f).2.2.eof = true) := by
  have hle := fgets_read_length_le (maxlen - 1) f.rest
  unfold fgets
  dsimp only
  split_ifs with h
  · exact ⟨hle, fun h1 => by simp at h1, fun _ => rfl⟩
  · refine ⟨hle, fun _ h2 => fgets_read_length_lt _ _ h2, fun h1 => by simp at h1⟩

/-- The loop of `readLine` gives the same result for every bound above the
length of the stream: the bound is not what ends it. -/
theorem readLine_loop_fuel (k1 k2 : Nat) (buf : List Byte) (maxlen : Nat) (f : FILE)
    (h1 : f.rest.length < k1) (h2 : f.rest.length < k2) :
    readLine_loop k1 buf maxlen f = readLine_loop k2 buf maxlen f := by
  induction k1 generalizing k2 buf f with
  | zero => exact absurd h1 (Nat.not_lt_zero _)
  | succ k1 ih =>
    cases k2 with
    | zero => exact absurd h2 (Nat.not_lt_zero _)
    | succ k2 =>
      rw [readLine_loop, readLine_loop]
      split_ifs with hc
      · have hne : (fgets buf maxlen f).2.1 ≠ [] := by
          intro he
          rw [he] at hc
          simp at hc
        have hlt := (fgets_progress buf maxlen f).2.1 hc.1 hne
        exact ih k2 _ _ (by omega) (by omega)
      · rfl

/-- The loop of `readLine` never lengthens the stream; it returns a null
status only with the end-of-file indicator set, and a non-null status only
after consuming a byte, given a buffer of at least two characters. -/
theorem readLine_loop_progress (k : Nat) (buf : List Byte) (maxlen : Nat) (f : FILE)
    (hk : f.rest.length < k) (hm : 2 ≤ maxlen) :
    (readLine_loop k buf maxlen f).2.2.rest.length ≤ f.rest.length ∧
    ((readLine_loop k buf maxlen f).1 = true →
      (readLine_loop k buf maxlen f).2.2.rest.length < f.rest.length) ∧
    ((readLine_loop k buf maxlen f).1 = false →
      (readLine_loop k buf maxlen f).2.2.eof = true) := by
  induction k generalizing buf f with
  | zero => exact absurd hk (Nat.not_lt_zero _)
  | succ k ih =>
    obtain ⟨p1, p2, p3⟩ := fgets_progress buf maxlen f
    have hstored : (fgets buf maxlen f).1 = true → (fgets buf maxlen f).2.1 ≠ [] := by
      unfold fgets
      dsimp only
      split_ifs with h
      · intro h1; simp at h1
      · intro _
        simp only
        intro he
        apply h
        refine ⟨he, ?_⟩
        cases hrest : f.rest with
        | nil =>
          have e1 : maxlen - 1 = (maxlen - 2) + 1 := by omega
          rw [e1, fgets_read_nil]
        | cons c t =>
          have e1 : maxlen - 1 = (maxlen - 2) + 1 := by omega
          rw [hrest, e1] at he
          exact absurd he (fgets_read_cons _ c t).1
    rw [readLine_loop]
    split_ifs with hc
    · have hlt := p2 hc.1 (hstored hc.1)
      obtain ⟨q1, q2, q3⟩ := ih (fgets buf maxlen f).2.1 (fgets buf maxlen f).2.2 (by omega)
      exact ⟨by omega, fun h => by have := q2 h; omega, q3⟩
    · refine ⟨p1, fun h => p2 h (hstored h), p3⟩

/-- The loop of `read_white_balance` gives the same result for every bound
that is at least `iterations_left`: with the bound `read_white_balance`
passes, the loop ends on end of file or on a match, not on the bound. -/
theorem read_white_balance_loop_fuel (k1 k2 : Nat) (buf : List Byte) (f : FILE)
    (h1 : iterations_left f ≤ k1) (h2 : iterations_left f ≤ k2) :
    read_white_balance_loop k1 buf f = read_white_balance_loop k2 buf f := by
  induction k1 generalizing k2 buf f with
  | zero =>
    have he : f.eof = true := by
      unfold iterations_left at h1
      by_contra hne
      rw [if_neg hne] at h1
      omega
    cases k2 with
    | zero => rfl
    | succ k2 => rw [read_white_balance_loop, read_white_balance_loop, if_pos he]
  | succ k1 ih =>
    by_cases he : f.eof = true
    · cases k2 with
      | zero => rw [read_white_balance_loop, read_white_balance_loop, if_pos he]
      | succ k2 => rw [read_white_balance_loop, read_white_balance_loop, if_pos he, if_pos he]
    · have hf : iterations_left f = f.rest.length + 1 := by
        unfold iterations_left; rw [if_neg he]
      cases k2 with
      | zero => omega
      | succ k2 =>
        rw [read_white_balance_loop, read_white_balance_loop, if_neg he, if_neg he]
        obtain ⟨q1, q2, q3⟩ := readLine_loop_progress (f.rest.length + 1) buf 1024 f
          (Nat.lt_succ_self _) (by decide)
        have hnext : iterations_left (PipeOpener.readLine buf 1024 f).2.2 ≤ f.rest.length := by
          unfold iterations_left PipeOpener.readLine
          split_ifs with h'
          · exact Nat.zero_le _
          · cases hs : (readLine_loop (f.rest.length + 1) buf 1024 f).1 with
            | true => have := q2 hs; omega
            | false => exact absurd (q3 hs) h'
        dsimp only
        cases hsc : sscanf_camera_multipliers (PipeOpener.readLine buf 1024 f).2.1 with
        | none => exact ih k2 _ _ (by omega) (by omega)
        | some v => rfl

/-! ### Lines that fit the line buffer -/

/-- Only the empty stream has no line. -/
theorem stream_lines_cons_ne_nil (c : Byte) (t : List Byte) : stream_lines (c :: t) ≠ [] := by
  rw [stream_lines]
  split_ifs
  · simp
  · split <;> simp

/-- When the first line of a stream fits into `n` characters, `fgets_read`
takes exactly that line and leaves the other lines. -/
theorem fgets_read_first_line (n : Nat) (s : List Byte) (l : List Byte) (ls : List (List Byte))
    (hs : stream_lines s = l :: ls) (hl : l.length ≤ n) :
    (fgets_read n s).1 = l ∧ stream_lines (fgets_read n s).2.1 = ls := by
  induction s generalizing n l ls with
  | nil => simp [stream_lines] at hs
  | cons c t ih =>
    rw [stream_lines] at hs
    by_cases hc : c = 10
    · rw [if_pos hc] at hs
      obtain ⟨rfl, rfl⟩ := List.cons.inj hs
      cases n with
      | zero => simp at hl
      | succ n => simp [fgets_read, hc]
    · rw [if_neg hc] at hs
      cases t with
      | nil =>
        simp only [stream_lines] at hs
        obtain ⟨rfl, rfl⟩ := List.cons.inj hs
        cases n with
        | zero => simp at hl
        | succ n =>
          cases n with
          | zero => simp [fgets_read, hc, stream_lines]
          | succ n => simp [fgets_read, hc, stream_lines]
      | cons d u =>
        cases hlines : stream_lines (d :: u) with
        | nil => exact absurd hlines (stream_lines_cons_ne_nil d u)
        | cons l1 ls1 =>
          rw [hlines] at hs
          simp only at hs
          obtain ⟨rfl, rfl⟩ := List.cons.inj hs
          cases n with
          | zero => simp at hl
          | succ n =>
            have hl1 : l1.length ≤ n := by simpa using hl
            obtain ⟨e1, e2⟩ := ih n l1 ls1 hlines hl1
            rw [fgets_read]
            simp only [hc, if_false]
            exact ⟨by rw [e1], e2⟩

/-- The call of `fgets` with a 1024-byte buffer on a stream that is not empty. -/
theorem fgets_cons (buf : List Byte) (c : Byte) (t : List Byte) (eof : Bool) :
    fgets buf 1024 ⟨c :: t, eof⟩ =
      (true, (fgets_read 1023 (c :: t)).1,
        ⟨(fgets_read 1023 (c :: t)).2.1, eof || (fgets_read 1023 (c :: t)).2.2⟩) := by
  have hne : (fgets_read 1023 (c :: t)).1 ≠ [] := (fgets_read_cons 1022 c t).1
  simp [fgets, hne]

/-- The loop of `readLine` on a stream whose first lines are comment lines
`cs`, followed by a line `l` that does not begin with `#`, all of them short
enough for the buffer: it returns `l` and leaves the lines after `l`. -/
theorem readLine_loop_lines (k : Nat) (buf : List Byte) (f : FILE) (cs : List (List Byte))
    (l : List Byte) (ls : List (List Byte)) (hk : f.rest.length < k)
    (hs : stream_lines f.rest = cs ++ l :: ls)
    (hcs : ∀ c ∈ cs, c.head? = some 35 ∧ c.length ≤ 1023)
    (hl : l.length ≤ 1023) (hh : l.head? ≠ some 35) :
    (readLine_loop k buf 1024 f).1 = true ∧ (readLine_loop k buf 1024 f).2.1 = l ∧
    stream_lines (readLine_loop k buf 1024 f).2.2.rest = ls := by
  induction cs generalizing k buf f with
  | nil =>
    obtain ⟨rest, eof⟩ := f
    cases rest with
    | nil => simp [stream_lines] at hs
    | cons c t =>
      cases k with
      | zero => exact absurd hk (Nat.not_lt_zero _)
      | succ k =>
        obtain ⟨e1, e2⟩ := fgets_read_first_line 1023 (c :: t) l ls hs hl
        have hf : fgets buf 1024 ⟨c :: t, eof⟩ =
            (true, l, ⟨(fgets_read 1023 (c :: t)).2.1,
              eof || (fgets_read 1023 (c :: t)).2.2⟩) := by
          rw [fgets_cons, e1]
        rw [readLine_loop, hf]
        simp only [hh, and_false, if_false]
        exact ⟨trivial, trivial, e2⟩
  | cons c0 cs ih =>
    obtain ⟨rest, eof⟩ := f
    cases rest with
    | nil => simp [stream_lines] at hs
    | cons c t =>
      cases k with
      | zero => exact absurd hk (Nat.not_lt_zero _)
      | succ k =>
        have h0 := hcs c0 (List.mem_cons_self _ _)
        obtain ⟨e1, e2⟩ := fgets_read_first_line 1023 (c :: t) c0 (cs ++ l :: ls) hs h0.2
        have hlt : (fgets_read 1023 (c :: t)).2.1.length ≤ t.length :=
          (fgets_read_cons 1022 c t).2
        have hf : fgets buf 1024 ⟨c :: t, eof⟩ =
            (true, c0, ⟨(fgets_read 1023 (c :: t)).2.1,
              eof || (fgets_read 1023 (c :: t)).2.2⟩) := by
          rw [fgets_cons, e1]
        rw [readLine_loop, hf]
        simp only [h0.1, and_self, if_true]
        simp only [List.length_cons] at hk
        exact ih k c0 _ (by simp only; omega) e2
          (fun c1 hc1 => hcs c1 (List.mem_cons_of_mem _ hc1))

/-- What the comment on `readLine` promises holds for lines that fit the
buffer: on a stream whose first lines are comment lines `cs`, followed by a
line `l` that does not begin with `#`, none of them longer than 1023 bytes,
`readLine` returns `l` and leaves the lines after `l` in the stream. -/
theorem readLine_lines (buf : List Byte) (f : FILE) (cs : List (List Byte))
    (l : List Byte) (ls : List (List Byte))
    (hs : stream_lines f.rest = cs ++ l :: ls)
    (hcs : ∀ c ∈ cs, c.head? = some 35 ∧ c.length ≤ 1023)
    (hl : l.length ≤ 1023) (hh : l.head? ≠ some 35) :
    (PipeOpener.readLine buf 1024 f).1 = true ∧ (PipeOpener.readLine buf 1024 f).2.1 = l ∧
    stream_lines (PipeOpener.readLine buf 1024 f).2.2.rest = ls :=
  readLine_loop_lines _ buf f cs l ls (Nat.lt_succ_self _) hs hcs hl hh

/-! ### Order of the transposes -/

/-- The axes after the two transposes in the opposite order. -/
theorem process_opposite_order_dim (S : Stages) (self : HDRPlus) (init : Mem) :
    (self.process_opposite_order S init).dim =
      [⟨0, self.height, 3 * self.width⟩, ⟨0, 3, 1⟩, ⟨0, self.width, 3⟩] := by
  simp [HDRPlus.process_opposite_order, HDRPlus.realized, Buffer.alloc, dense_dims,
    Buffer.transpose, Func.realize]

/-- C11: the two transposes of `process` in the opposite order give the axes
(height, channel, width): the channel axis, of extent 3 and stride 1, is axis 1
and the last axis has stride 3, while `process` puts the channel axis last; the
two buffers differ for every width and height. -/
theorem process_opposite_order_differs (S : Stages) (self : HDRPlus) (init : Mem) :
    self.process S init = ((self.realized S init).transpose 0 1).transpose 1 2 ∧
    (self.process_opposite_order S init).dim =
      [⟨0, self.height, 3 * self.width⟩, ⟨0, 3, 1⟩, ⟨0, self.width, 3⟩] ∧
    (self.process_opposite_order S init).stride 1 = 1 ∧
    (self.process_opposite_order S init).extent 1 = 3 ∧
    (self.process_opposite_order S init).stride 2 = 3 ∧
    (self.process_opposite_order S init).stride 2 ≠ (self.process S init).stride 2 ∧
    (self.process_opposite_order S init).channels = self.width ∧
    (self.process_opposite_order S init).dim ≠ (self.process S init).dim ∧
    self.process_opposite_order S init ≠ self.process S init := by
  have hd := process_opposite_order_dim S self init
  have hp := process_dim S self init
  have hne : (self.process_opposite_order S init).dim ≠ (self.process S init).dim := by
    rw [hd, hp]
    intro h
    simp only [List.cons.injEq, halide_dimension_t.mk.injEq, true_and, and_true] at h
    omega
  refine ⟨rfl, hd, ?_, ?_, ?_, ?_, ?_, hne, fun h => hne (by rw [h])⟩
  · simp [Buffer.stride, hd]
  · simp [Buffer.extent, hd]
  · simp [Buffer.stride, hd]
  · simp [Buffer.stride, hd, hp]
  · simp [Buffer.channels, Buffer.dimensions, Buffer.extent, hd]

/-- C19: for strictly positive multipliers and a positive factor k, the
normalisation of (k r, k g0, k g1, k b) is the normalisation of (r, g0, g1, b),
and that is each value divided by the least of the four. -/
theorem read_white_balance_normalise_scale (r g0 g1 b k : ℚ) (hr : 0 < r) (hg0 : 0 < g0)
    (hg1 : 0 < g1) (hb : 0 < b) (hk : 0 < k) :
    read_white_balance_normalise (k * r) (k * g0) (k * g1) (k * b)
      = read_white_balance_normalise r g0 g1 b ∧
    read_white_balance_normalise r g0 g1 b
      = ⟨r / min (min r g0) (min g1 b), g0 / min (min r g0) (min g1 b),
         g1 / min (min r g0) (min g1 b), b / min (min r g0) (min g1 b)⟩ := by
  have key : ∀ a0 a1 a2 a3 : ℚ, 0 < a0 → 0 < a1 → 0 < a2 → 0 < a3 →
      read_white_balance_normalise a0 a1 a2 a3
        = ⟨a0 / min (min a0 a1) (min a2 a3), a1 / min (min a0 a1) (min a2 a3),
           a2 / min (min a0 a1) (min a2 a3), a3 / min (min a0 a1) (min a2 a3)⟩ := by
    intro a0 a1 a2 a3 h0 h1 h2 h3
    have hm : 0 < min (min a0 a1) (min a2 a3) := lt_min (lt_min h0 h1) (lt_min h2 h3)
    have one_le : ∀ x : ℚ, min (min a0 a1) (min a2 a3) ≤ x →
        max 1 (x / min (min a0 a1) (min a2 a3)) = x / min (min a0 a1) (min a2 a3) := by
      intro x hx
      exact max_eq_right ((one_le_div hm).mpr hx)
    simp only [read_white_balance_normalise, gt_iff_lt, h0, h1, h2, h3, if_true]
    rw [one_le a0 (le_trans (min_le_left _ _) (min_le_left _ _)),
      one_le a1 (le_trans (min_le_left _ _) (min_le_right _ _)),
      one_le a2 (le_trans (min_le_right _ _) (min_le_left _ _)),
      one_le a3 (le_trans (min_le_right _ _) (min_le_right _ _))]
  have hscale : min (min (k * r) (k * g0)) (min (k * g1) (k * b))
      = k * min (min r g0) (min g1 b) := by
    rw [← mul_min_of_nonneg _ _ (le_of_lt hk), ← mul_min_of_nonneg _ _ (le_of_lt hk),
      ← mul_min_of_nonneg _ _ (le_of_lt hk)]
  refine ⟨?_, key r g0 g1 b hr hg0 hg1 hb⟩
  rw [key (k * r) (k * g0) (k * g1) (k * b) (mul_pos hk hr) (mul_pos hk hg0) (mul_pos hk hg1)
    (mul_pos hk hb), key r g0 g1 b hr hg0 hg1 hb, hscale]
  have hk0 : k ≠ 0 := ne_of_gt hk
  simp only [mul_div_mul_left _ _ hk0]

/-- Witness for C19: the multipliers (2, 1, 3, 4) and the factor 5/2. -/
theorem read_white_balance_normalise_scale_witness :
    read_white_balance_normalise (5 / 2 * 2) (5 / 2 * 1) (5 / 2 * 3) (5 / 2 * 4)
      = read_white_balance_normalise 2 1 3 4 ∧
    read_white_balance_normalise 2 1 3 4
      = ⟨2 / min (min 2 1) (min 3 4), 1 / min (min 2 1) (min 3 4),
         3 / min (min 2 1) (min 3 4), 4 / min (min 2 1) (min 3 4)⟩ :=
  read_white_balance_normalise_scale 2 1 3 4 (5 / 2) (by norm_num) (by norm_num) (by norm_num)
    (by norm_num) (by norm_num)

/-! ### Lines longer than the line buffer -/

/-- A run of characters without a newline fills one `fgets_read` of its length. -/
theorem fgets_read_no_newline (xs t : List Byte) (h : ∀ c ∈ xs, c ≠ 10) :
    fgets_read xs.length (xs ++ t) = (xs, t, false) := by
  induction xs with
  | nil => simp [fgets_read]
  | cons c u ih =>
    have hc : c ≠ 10 := h c (List.mem_cons_self _ _)
    have hu := ih (fun d hd => h d (List.mem_cons_of_mem _ hd))
    simp [fgets_read, hc, hu]

/-- The call of `readLine` with a 1024-byte buffer on a stream that starts
with 1023 characters without a newline, the first of them not `#`: the call
returns these characters and leaves the rest of the line in the stream. -/
theorem readLine_full_buffer (xs t buf : List Byte) (e : Bool) (hlen : xs.length = 1023)
    (h : ∀ c ∈ xs, c ≠ 10) (hh : xs.head? ≠ some 35) :
    PipeOpener.readLine buf 1024 ⟨xs ++ t, e⟩ = (true, xs, ⟨t, e⟩) := by
  have hr : fgets_read 1023 (xs ++ t) = (xs, t, false) := by
    rw [← hlen]; exact fgets_read_no_newline xs t h
  have hne : xs ≠ [] := by
    intro h0; rw [h0] at hlen; simp at hlen
  have hf : fgets buf 1024 ⟨xs ++ t, e⟩ = (true, xs, ⟨t, e⟩) := by
    simp [fgets, hr, hne]
  rw [PipeOpener.readLine, readLine_loop, hf]
  simp [hh]

set_option maxRecDepth 20000 in
/-- C18, at a failing input: the metadata output is one line, the line
matches with the numbers 1, 1, 1, 2, whose normalisation is (1, 1, 2, 1), so
by C18 that is the result; yet `read_white_balance` returns the default
(2, 1, 2, 1): `readLine` hands over the first 1023 bytes of the line, which end
before the fourth number, and then the rest of the line, and neither matches. -/
theorem read_white_balance_split_line :
    stream_lines split_number_output = [split_number_output] ∧
    sscanf_camera_multipliers split_number_output = some (1, 1, 1, 2) ∧
    read_white_balance_normalise 1 1 2 1 = ⟨1, 1, 2, 1⟩ ∧
    read_white_balance (fun _ => some split_number_output) [] "a.CR2" = ⟨2, 1, 2, 1⟩ ∧
    (⟨2, 1, 2, 1⟩ : WhiteBalance) ≠ ⟨1, 1, 2, 1⟩ := by
  have hshape : split_number_output
      = (bytes "Camera multipliers: 1 1 1" ++ List.replicate 998 32) ++ bytes "2\n" := by
    simp only [split_number_output, split_number_line, List.append_assoc]
    rfl
  have hnl : ∀ c ∈ bytes "Camera multipliers: 1 1 1" ++ List.replicate 998 32, c ≠ 10 := by
    intro c hc
    simp only [List.mem_append, List.mem_replicate] at hc
    rcases hc with hc | ⟨_, rfl⟩
    · revert c
      decide
    · decide
  have hlen : (bytes "Camera multipliers: 1 1 1" ++ List.replicate 998 32).length = 1023 := by
    rw [List.length_append, List.length_replicate]
    rfl
  have hs1 : scan_camera_multipliers
      (bytes "Camera multipliers: 1 1 1" ++ List.replicate 998 32) = none := by decide
  have hs2 : scan_camera_multipliers (bytes "2\n") = none := by decide
  have hs : scan_camera_multipliers split_number_output
      = some (⟨false, 1, 0⟩, ⟨false, 1, 0⟩, ⟨false, 1, 0⟩, ⟨false, 2, 0⟩) := by decide
  have hr1 : PipeOpener.readLine [] 1024 ⟨split_number_output, false⟩
      = (true, bytes "Camera multipliers: 1 1 1" ++ List.replicate 998 32,
          ⟨bytes "2\n", false⟩) := by
    rw [hshape]
    exact readLine_full_buffer _ (bytes "2\n") [] false hlen hnl (by decide)
  have hr2 : ∀ buf, PipeOpener.readLine buf 1024 ⟨bytes "2\n", false⟩
      = (true, bytes "2\n", ⟨[], false⟩) := by
    intro buf
    rfl
  have hr3 : PipeOpener.readLine (bytes "2\n") 1024 ⟨[], false⟩
      = (false, bytes "2\n", ⟨[], true⟩) := by decide
  have hloop : ∀ k, read_white_balance_loop (k + 4) [] ⟨split_number_output, false⟩
      = ⟨2, 1, 2, 1⟩ := by
    intro k
    rw [read_white_balance_loop, if_neg (by simp), hr1]
    simp only [sscanf_camera_multipliers, hs1]
    rw [read_white_balance_loop, if_neg (by simp), hr2]
    simp only [sscanf_camera_multipliers, hs2]
    rw [read_white_balance_loop, if_neg (by simp), hr3]
    simp only [sscanf_camera_multipliers, hs2]
    rw [read_white_balance_loop, if_pos rfl]
  have hfuel : split_number_output.length + 2 = 1023 + 4 := by
    rw [hshape, List.length_append, hlen]
    rfl
  refine ⟨?_, ?_, ?_, ?_, ?_⟩
  · apply stream_lines_single
    intro c hc
    simp only [split_number_line, List.mem_append, List.mem_replicate] at hc
    rcases hc with (hc | ⟨_, rfl⟩) | hc
    · revert c
      decide
    · decide
    · revert c
      decide
  · simp [sscanf_camera_multipliers, hs, Decimal.value]
  · norm_num [read_white_balance_normalise]
  · unfold read_white_balance
    simp only
    rw [hfuel]
    exact hloop 1023
  · intro h
    have := congrArg WhiteBalance.r h
    norm_num at this

set_option maxRecDepth 100000 in
/-- C12, at a failing input: the metadata output is the one line
`Camera multipliers: 1 2 3 0...04` with 997 zeros before the 4. Its four
numbers are 1, 2, 3, 4, so by C12 the fourth component of the result comes
from 3 and the third from 4, and the result is (1, 2, 4, 3); yet
`read_white_balance` returns (1, 2, 1, 3): `readLine` hands over the first
1023 bytes of the line, where the fourth number reads 0. -/
theorem read_white_balance_zero_padded_line :
    stream_lines zero_padded_output = [zero_padded_output] ∧
    sscanf_camera_multipliers zero_padded_output = some (1, 2, 3, 4) ∧
    read_white_balance_normalise 1 2 4 3 = ⟨1, 2, 4, 3⟩ ∧
    read_white_balance (fun _ => some zero_padded_output) [] "a.CR2" = ⟨1, 2, 1, 3⟩ ∧
    (⟨1, 2, 1, 3⟩ : WhiteBalance) ≠ ⟨1, 2, 4, 3⟩ := by
  have hnl : ∀ c ∈ zero_padded_head, c ≠ 10 := by
    intro c hc
    simp only [zero_padded_head, List.mem_append, List.mem_replicate] at hc
    rcases hc with hc | ⟨_, rfl⟩
    · revert c
      decide
    · decide
  have hlen : zero_padded_head.length = 1023 := by
    rw [zero_padded_head, List.length_append, List.length_replicate]
    rfl
  have hs1 : scan_camera_multipliers zero_padded_head
      = some (⟨false, 1, 0⟩, ⟨false, 2, 0⟩, ⟨false, 3, 0⟩, ⟨false, 0, 0⟩) := by decide
  have hs : scan_camera_multipliers zero_padded_output
      = some (⟨false, 1, 0⟩, ⟨false, 2, 0⟩, ⟨false, 3, 0⟩, ⟨false, 4, 0⟩) := by decide
  have hr1 : PipeOpener.readLine [] 1024 ⟨zero_padded_output, false⟩
      = (true, zero_padded_head, ⟨bytes "4\n", false⟩) :=
    readLine_full_buffer zero_padded_head (bytes "4\n") [] false hlen hnl (by decide)
  refine ⟨?_, ?_, ?_, ?_, ?_⟩
  rotate_left 4
  · intro h
    have := congrArg WhiteBalance.g1 h
    norm_num at this
  · have e : zero_padded_output = (zero_padded_head ++ bytes "4") ++ [10] := by
      simp only [zero_padded_output, List.append_assoc]
      rfl
    rw [e]
    apply stream_lines_single
    intro c hc
    rw [List.mem_append] at hc
    rcases hc with hc | hc
    · exact hnl c hc
    · revert c
      decide
  · simp [sscanf_camera_multipliers, hs, Decimal.value]
  · norm_num [read_white_balance_normalise]
  · unfold read_white_balance
    simp only
    rw [read_white_balance_loop, if_neg (by simp), hr1]
    simp only [sscanf_camera_multipliers, hs1]
    norm_num [read_white_balance_normalise, Decimal.value]

/-- On outputs whose lines fit the line buffer: a multipliers line with three
numbers gives the default, the first of two multipliers lines is taken, and the
third and fourth number of `Camera multipliers: 2 1 3 4` become the fourth and
the third component. -/
theorem read_white_balance_short_lines :
    read_white_balance (fun _ => some three_fields_output) [] "a.CR2" = ⟨2, 1, 2, 1⟩ ∧
    read_white_balance (fun _ => some two_matches_output) [] "a.CR2" = ⟨1, 2, 4, 3⟩ ∧
    read_white_balance (fun _ => some one_match_output) [] "a.CR2" = ⟨2, 1, 4, 3⟩ := by
  refine ⟨?_, ?_, ?_⟩
  · have hr1 : PipeOpener.readLine [] 1024 ⟨three_fields_output, false⟩
        = (true, bytes "Filename: a.CR2\n", ⟨bytes "Camera multipliers: 2 1 2\n", false⟩) := by
      decide
    have hr2 : PipeOpener.readLine (bytes "Filename: a.CR2\n") 1024
        ⟨bytes "Camera multipliers: 2 1 2\n", false⟩
        = (true, bytes "Camera multipliers: 2 1 2\n", ⟨[], false⟩) := by decide
    have hr3 : PipeOpener.readLine (bytes "Camera multipliers: 2 1 2\n") 1024 ⟨[], false⟩
        = (false, bytes "Camera multipliers: 2 1 2\n", ⟨[], true⟩) := by decide
    have hs1 : scan_camera_multipliers (bytes "Filename: a.CR2\n") = none := by decide
    have hs2 : scan_camera_multipliers (bytes "Camera multipliers: 2 1 2\n") = none := by
      decide
    have hloop : ∀ k, read_white_balance_loop (k + 4) [] ⟨three_fields_output, false⟩
        = ⟨2, 1, 2, 1⟩ := by
      intro k
      rw [read_white_balance_loop, if_neg (by simp), hr1]
      simp only [sscanf_camera_multipliers, hs1]
      rw [read_white_balance_loop, if_neg (by simp), hr2]
      simp only [sscanf_camera_multipliers, hs2]
      rw [read_white_balance_loop, if_neg (by simp), hr3]
      simp only [sscanf_camera_multipliers, hs2]
      rw [read_white_balance_loop, if_pos rfl]
    exact hloop (three_fields_output.length - 2)
  · have hr1 : PipeOpener.readLine [] 1024 ⟨two_matches_output, false⟩
        = (true, bytes "Filename: a.CR2\n",
            ⟨bytes "Camera multipliers: 1 2 3 4\nCamera multipliers: 1 1 1 1\n", false⟩) := by
      decide
    have hr2 : PipeOpener.readLine (bytes "Filename: a.CR2\n") 1024
        ⟨bytes "Camera multipliers: 1 2 3 4\nCamera multipliers: 1 1 1 1\n", false⟩
        = (true, bytes "Camera multipliers: 1 2 3 4\n",
            ⟨bytes "Camera multipliers: 1 1 1 1\n", false⟩) := by decide
    have hs1 : scan_camera_multipliers (bytes "Filename: a.CR2\n") = none := by decide
    have hs2 : scan_camera_multipliers (bytes "Camera multipliers: 1 2 3 4\n")
        = some (⟨false, 1, 0⟩, ⟨false, 2, 0⟩, ⟨false, 3, 0⟩, ⟨false, 4, 0⟩) := by decide
    have hloop : ∀ k, read_white_balance_loop (k + 2) [] ⟨two_matches_output, false⟩
        = ⟨1, 2, 4, 3⟩ := by
      intro k
      rw [read_white_balance_loop, if_neg (by simp), hr1]
      simp only [sscanf_camera_multipliers, hs1]
      rw [read_white_balance_loop, if_neg (by simp), hr2]
      simp only [sscanf_camera_multipliers, hs2]
      norm_num [read_white_balance_normalise, Decimal.value]
    exact hloop two_matches_output.length
  · have hr1 : PipeOpener.readLine [] 1024 ⟨one_match_output, false⟩
        = (true, one_match_output, ⟨[], false⟩) := by decide
    have hs : scan_camera_multipliers one_match_output
        = some (⟨false, 2, 0⟩, ⟨false, 1, 0⟩, ⟨false, 3, 0⟩, ⟨false, 4, 0⟩) := by decide
    have hloop : ∀ k, read_white_balance_loop (k + 1) [] ⟨one_match_output, false⟩
        = ⟨2, 1, 4, 3⟩ := by
      intro k
      rw [read_white_balance_loop, if_neg (by simp), hr1]
      simp only [sscanf_camera_multipliers, hs]
      norm_num [read_white_balance_normalise, Decimal.value]
    exact hloop (one_match_output.length + 1)

/-! ### Failure while loading a burst -/

/-- The loop of `load_raws` on names `pre`, then a name `bad` on which the
decoder fails, then `post`: it returns false, with the frames of `pre` in their
slots and the memory outside the first `pre.length + 1` slots untouched. -/
theorem load_raws_loop_fail (load_image : Decoder) (dir_path : String) (width height : Nat)
    (pre : List String) (bad : String) (post : List String) (frames : Nat → Nat → Nat)
    (mem : Mem) (data : Nat)
    (hmul : width * height < 2 ^ 31)
    (hpre : ∀ (k : Nat) (hk : k < pre.length) (mem : Mem) (data : Nat), ∃ mem1,
      load_image (dir_path ++ "/" ++ pre[k]) mem data width height = some (.ok, mem1) ∧
      (∀ j, j < width * height → mem1 (data + j) = frames k j) ∧
      (∀ a, a < data ∨ data + width * height ≤ a → mem1 a = mem a))
    (hbad : ∀ (mem : Mem) (data : Nat), ∃ e mem1,
      load_image (dir_path ++ "/" ++ bad) mem data width height = some (.error e, mem1) ∧
      (∀ a, a < data ∨ data + width * height ≤ a → mem1 a = mem a)) :
    ∃ mem2, load_raws_loop load_image dir_path width height (pre ++ bad :: post) mem data
        = some (false, mem2) ∧
      (∀ k j, k < pre.length → j < width * height →
        mem2 (data + k * (width * height) + j) = frames k j) ∧
      (∀ a, a < data ∨ data + (pre.length + 1) * (width * height) ≤ a → mem2 a = mem a) := by
  induction pre generalizing frames mem data with
  | nil =>
    obtain ⟨e, mem1, hload, hout⟩ := hbad mem data
    refine ⟨mem1, ?_, ?_, ?_⟩
    · simp only [List.nil_append, load_raws_loop, hload]
    · intro k j hk
      simp at hk
    · intro a ha
      simp only [List.length_nil, Nat.zero_add, Nat.one_mul] at ha
      exact hout a ha
  | cons name rest ih =>
    obtain ⟨mem1, hload, hin, hout⟩ := hpre 0 (by simp) mem data
    simp only [List.getElem_cons_zero] at hload
    have hrest : ∀ (k : Nat) (hk : k < rest.length) (mem : Mem) (data : Nat), ∃ mem1,
        load_image (dir_path ++ "/" ++ rest[k]) mem data width height = some (.ok, mem1) ∧
        (∀ j, j < width * height → mem1 (data + j) = frames (k + 1) j) ∧
        (∀ a, a < data ∨ data + width * height ≤ a → mem1 a = mem a) := by
      intro k hk m d
      have := hpre (k + 1) (by simp; omega) m d
      simpa using this
    obtain ⟨mem2, hloop, hfr, hlow⟩ :=
      ih (fun k => frames (k + 1)) mem1 (data + width * height) hrest
    refine ⟨mem2, ?_, ?_, ?_⟩
    · rw [List.cons_append, load_raws_loop]
      simp only [hload, int_mul, hmul, if_true]
      exact hloop
    · intro k j hk hj
      cases k with
      | zero =>
        rw [Nat.zero_mul, Nat.add_zero, hlow _ (Or.inl (by omega))]
        exact hin j hj
      | succ k =>
        have hk1 : k < rest.length := by simpa using hk
        have := hfr k j hk1 hj
        rw [Nat.succ_mul, ← this]
        congr 1
        omega
    · intro a ha
      have e1 : (rest.length + 1 + 1) * (width * height)
          = (rest.length + 1) * (width * height) + width * height := Nat.succ_mul _ _
      simp only [List.length_cons, e1] at ha
      rw [hlow a (by omega)]
      exact hout a (by omega)

/-- The loop of `load_raws` does not consult the decoder on a file after the
one that fails: a decoder that agrees on the files up to that one, and any
other names after it, give the same result. -/
theorem load_raws_loop_congr (load_image load_image1 : Decoder) (dir_path : String)
    (width height : Nat) (pre : List String) (bad : String) (post post1 : List String)
    (mem : Mem) (data : Nat)
    (hagree : ∀ name ∈ pre ++ [bad], ∀ (mem : Mem) (data : Nat),
      load_image1 (dir_path ++ "/" ++ name) mem data width height
        = load_image (dir_path ++ "/" ++ name) mem data width height)
    (hbad : ∀ (mem : Mem) (data : Nat), ∃ e mem1,
      load_image (dir_path ++ "/" ++ bad) mem data width height = some (.error e, mem1)) :
    load_raws_loop load_image1 dir_path width height (pre ++ bad :: post1) mem data
      = load_raws_loop load_image dir_path width height (pre ++ bad :: post) mem data := by
  induction pre generalizing mem data with
  | nil =>
    obtain ⟨e, mem1, hload⟩ := hbad mem data
    have h1 := hagree bad (by simp) mem data
    simp only [List.nil_append, load_raws_loop, h1, hload]
  | cons name rest ih =>
    have h1 := hagree name (by simp) mem data
    have hrest : ∀ n ∈ rest ++ [bad], ∀ (mem : Mem) (data : Nat),
        load_image1 (dir_path ++ "/" ++ n) mem data width height
          = load_image (dir_path ++ "/" ++ n) mem data width height :=
      fun n hn => hagree n (by simp at hn ⊢; exact Or.inr hn)
    simp only [List.cons_append, load_raws_loop, h1]
    cases load_image (dir_path ++ "/" ++ name) mem data width height with
    | none => rfl
    | some r =>
      obtain ⟨st, mem1⟩ := r
      cases st with
      | error e => rfl
      | ok =>
        simp only
        cases int_mul width height with
        | none => rfl
        | some step => exact ih mem1 (data + step) hrest

/-- Counterexample to C13 as stated: the second of three files fails to
decode; `load_raws` returns false and the caller's `imgs` holds the new
allocation of extents (1, 1, 3), with the sample 0x0102 of the first file in it. -/
theorem load_raws_keeps_buffer_counterexample :
    (HDRPlus.load_raws (load_raw failing_popen true []) (fun _ => 0) "d" ["a", "b", "c"] 1 1).map
        (fun r => (r.1, r.2.dim, r.2.host 0))
      = some (false, [⟨0, 1, 1⟩, ⟨0, 1, 1⟩, ⟨0, 3, 1⟩], 0x0102) ∧
    (0x0102 : Nat) ≠ (fun _ => 0 : Mem) 0 := by
  decide

/-- C13, amended: when the decoder fails on the file after the names `pre`,
`load_raws` returns false at once, and no file after that one influences the
result: another decoder that agrees on the files up to the failing one, and
any other names after it, give the same result. The caller's `imgs` is left
holding the new allocation of extents (width, height, N), with the frames of
`pre` in their slots and nothing written after the slot of the failing file. -/
theorem load_raws_fails_fast (load_image : Decoder) (init : Mem) (dir_path : String)
    (pre : List String) (bad : String) (post : List String) (width height : Nat)
    (frames : Nat → Nat → Nat)
    (hmul : width * height < 2 ^ 31)
    (hpre : ∀ (k : Nat) (hk : k < pre.length) (mem : Mem) (data : Nat), ∃ mem1,
      load_image (dir_path ++ "/" ++ pre[k]) mem data width height = some (.ok, mem1) ∧
      (∀ j, j < width * height → mem1 (data + j) = frames k j) ∧
      (∀ a, a < data ∨ data + width * height ≤ a → mem1 a = mem a))
    (hbad : ∀ (mem : Mem) (data : Nat), ∃ e mem1,
      load_image (dir_path ++ "/" ++ bad) mem data width height = some (.error e, mem1) ∧
      (∀ a, a < data ∨ data + width * height ≤ a → mem1 a = mem a)) :
    ∃ imgs, HDRPlus.load_raws load_image init dir_path (pre ++ bad :: post) width height
        = some (false, imgs) ∧
      imgs.dimensions = 3 ∧ imgs.width = width ∧ imgs.height = height ∧
      imgs.extent 2 = (pre ++ bad :: post).length ∧
      (∀ k j, k < pre.length → j < width * height →
        imgs.host (k * (width * height) + j) = frames k j) ∧
      (∀ a, (pre.length + 1) * (width * height) ≤ a → imgs.host a = init a) ∧
      (∀ (load_image1 : Decoder) (post1 : List String), post1.length = post.length →
        (∀ name ∈ pre ++ [bad], ∀ (mem : Mem) (data : Nat),
          load_image1 (dir_path ++ "/" ++ name) mem data width height
            = load_image (dir_path ++ "/" ++ name) mem data width height) →
        HDRPlus.load_raws load_image1 init dir_path (pre ++ bad :: post1) width height
          = HDRPlus.load_raws load_image init dir_path (pre ++ bad :: post) width height) := by
  obtain ⟨mem2, hloop, hfr, hout⟩ := load_raws_loop_fail load_image dir_path width height
    pre bad post frames (Buffer.alloc [width, height, (pre ++ bad :: post).length] init).host 0
    hmul hpre hbad
  refine ⟨{ Buffer.alloc [width, height, (pre ++ bad :: post).length] init with host := mem2 },
    ?_, ?_, ?_, ?_, ?_, ?_, ?_, ?_⟩
  · simp only [HDRPlus.load_raws, hloop]
  · simp [Buffer.alloc, dense_dims, Buffer.dimensions]
  · simp [Buffer.alloc, dense_dims, Buffer.dimensions, Buffer.width, Buffer.extent]
  · simp [Buffer.alloc, dense_dims, Buffer.dimensions, Buffer.height, Buffer.extent]
  · simp [Buffer.alloc, dense_dims, Buffer.extent]
  · intro k j hk hj
    have := hfr k j hk hj
    simpa using this
  · intro a ha
    have := hout a (Or.inr (by omega))
    simpa [Buffer.alloc] using this
  · intro load_image1 post1 hlen hagree
    have hc := load_raws_loop_congr load_image load_image1 dir_path width height pre bad post
      post1 (Buffer.alloc [width, height, (pre ++ bad :: post).length] init).host 0 hagree
      (fun m d => by
        obtain ⟨e, mem1, h, _⟩ := hbad m d
        exact ⟨e, mem1, h⟩)
    have hl : (pre ++ bad :: post1).length = (pre ++ bad :: post).length := by
      simp [hlen]
    simp only [HDRPlus.load_raws, hl]
    have hh : (Buffer.alloc [width, height, (pre ++ bad :: post).length] init).host = init := rfl
    rw [hh] at hc ⊢
    rw [hc]

/-- Witness for the amended C13: the second of three files fails. -/
theorem load_raws_fails_fast_witness :
    ∃ imgs, HDRPlus.load_raws (load_raw failing_popen true []) (fun _ => 0) "d"
        (["a"] ++ "b" :: ["c"]) 1 1 = some (false, imgs) ∧
      imgs.dimensions = 3 ∧ imgs.extent 2 = 3 ∧ imgs.host 0 = 0x0102 ∧ imgs.host 2 = 0 := by
  have hpre : ∀ (k : Nat) (hk : k < ["a"].length) (mem : Mem) (data : Nat), ∃ mem1,
      load_raw failing_popen true [] ("d" ++ "/" ++ ["a"][k]) mem data 1 1
        = some (.ok, mem1) ∧
      (∀ j, j < 1 * 1 → mem1 (data + j) = sample_frames k j) ∧
      (∀ a, a < data ∨ data + 1 * 1 ≤ a → mem1 a = mem a) := by
    intro k hk mem data
    match k, hk with
    | 0, _ =>
      obtain ⟨mem1, hload, hval, hout⟩ := load_raw_ok failing_popen true [] "d/a" mem data 1 1
        sample_pgm (bytes "P5") _ _ _ (by decide) rfl (by decide) (Or.inl rfl) rfl (by decide)
        rfl (by decide) (by decide) (by decide)
      refine ⟨mem1, hload, ?_, hout⟩
      intro j hj
      have hj0 : j = 0 := by omega
      subst hj0
      rw [hval 0 (by decide)]
      decide
    | k + 1, h => exact absurd h (by simp)
  have hbad : ∀ (mem : Mem) (data : Nat), ∃ e mem1,
      load_raw failing_popen true [] ("d" ++ "/" ++ "b") mem data 1 1
        = some (.error e, mem1) ∧
      (∀ a, a < data ∨ data + 1 * 1 ≤ a → mem1 a = mem a) := by
    intro mem data
    refine ⟨.could_not_open, mem, ?_, fun _ _ => rfl⟩
    have hopen : failing_popen ("dcraw -c -D -6 -W -g 1 1 " ++ ("d" ++ "/" ++ "b")) = none := by
      decide
    simp only [load_raw, hopen]
  obtain ⟨imgs, hload, hd, _, _, hn, hfr, hafter, _⟩ :=
    load_raws_fails_fast (load_raw failing_popen true []) (fun _ => 0) "d" ["a"] "b" ["c"] 1 1
      sample_frames (by decide) hpre hbad
  exact ⟨imgs, hload, hd, hn, hfr 0 0 (by decide) (by decide), hafter 2 (by decide)⟩

/-! ### Writing the image -/

/-- C14: for the image `process` returns, `save_png` calls the encoder with
width, height and channel count (width, height, 3) and the row stride
width * 3, which is the stride of the height axis; the encoder's offset of
row y, pixel x, channel c is the offset of element (x, y, c), where the
finished value at (c, x, y) is stored. The stride is an `int`. -/
theorem save_png_stride (stbi_write_png : PngCall → Bool) (S : Stages) (self : HDRPlus)
    (init : Mem) (dir_path img_name : String) (x y c : Nat)
    (hint : self.width * 3 < 2 ^ 31)
    (hx : x < self.width) (hy : y < self.height) (hc : c < 3) :
    HDRPlus.save_png stbi_write_png dir_path img_name (self.process S init)
      = some (stbi_write_png ⟨dir_path ++ "/" ++ img_name, self.width, self.height, 3,
          (self.process S init).host, self.width * 3⟩) ∧
    (self.process S init).width * (self.process S init).channels = self.width * 3 ∧
    self.width * 3 = (self.process S init).stride 1 ∧
    stbi_sample_offset ⟨dir_path ++ "/" ++ img_name, self.width, self.height, 3,
        (self.process S init).host, self.width * 3⟩ x y c
      = offset_of (self.process S init).dim [x, y, c] ∧
    (self.process S init).host
      (stbi_sample_offset ⟨dir_path ++ "/" ++ img_name, self.width, self.height, 3,
        (self.process S init).host, self.width * 3⟩ x y c) = self.finished S [c, x, y] := by
  have hd := process_dim S self init
  have hw : (self.process S init).width = self.width := by
    simp [Buffer.width, Buffer.dimensions, Buffer.extent, hd]
  have hh : (self.process S init).height = self.height := by
    simp [Buffer.height, Buffer.dimensions, Buffer.extent, hd]
  have hch : (self.process S init).channels = 3 := by
    simp [Buffer.channels, Buffer.dimensions, Buffer.extent, hd]
  have hint1 : self.width * 3 < 2147483648 := by simpa using hint
  have hoff : stbi_sample_offset ⟨dir_path ++ "/" ++ img_name, self.width, self.height, 3,
      (self.process S init).host, self.width * 3⟩ x y c = 3 * (y * self.width + x) + c := by
    simp only [stbi_sample_offset]
    ring
  refine ⟨?_, by rw [hw, hch], ?_, ?_, ?_⟩
  · simp only [HDRPlus.save_png, hw, hh, hch, int_mul]
    rw [if_pos (by simpa using hint1)]
    simp only
    cases hv : stbi_write_png ⟨dir_path ++ "/" ++ img_name, self.width, self.height, 3,
      (self.process S init).host, self.width * 3⟩ <;> simp
  · simp [Buffer.stride, hd, Nat.mul_comm]
  · rw [hoff, hd]
    simp only [offset_of, Nat.sub_zero]
    ring
  · rw [hoff, process_host]
    exact realize_planar _ init _ _ c x y hc hx hy

/-- Witness for C14: the image of width 2 and height 1, pixel x = 1, channel 2. -/
theorem save_png_stride_witness :
    HDRPlus.save_png (fun call => call.stride_in_bytes = 6) "d" "out.png"
        (sample_hdr.process sample_stages fun _ => 0) = some true ∧
    (sample_hdr.process sample_stages fun _ => 0).stride 1 = 6 ∧
    (sample_hdr.process sample_stages fun _ => 0).host 5 = 210 := by
  have h := save_png_stride (fun call => call.stride_in_bytes = 6) sample_stages sample_hdr
    (fun _ => 0) "d" "out.png" 1 0 2 (by decide) (by decide) (by decide) (by decide)
  obtain ⟨h1, _, h3, _, h5⟩ := h
  refine ⟨?_, h3.symm, h5⟩
  rw [h1]
  simp [sample_hdr]

/-! ### The arguments of `main` -/

/-- When the statements after the flag loop start the pipeline, the entries
left are the directory, the output name and at least two image names. -/
theorem main_positional_run (c g c1 g1 : ℚ) (rest : List String) (dir_path out_name : String)
    (in_names : List String)
    (h : main_positional c g rest = .run c1 g1 dir_path out_name in_names) :
    rest = dir_path :: out_name :: in_names ∧ 2 ≤ in_names.length := by
  unfold main_positional at h
  split_ifs at h with hlen
  match rest, hlen, h with
  | [], hlen, _ => simp at hlen
  | [_], hlen, _ => simp at hlen
  | d :: o :: ns, hlen, h =>
    simp only [Parsed.run.injEq] at h
    obtain ⟨_, _, rfl, rfl, rfl⟩ := h
    simp only [List.length_cons] at hlen
    exact ⟨rfl, by omega⟩

/-- When the flag loop and the statements after it start the pipeline, the
entries scanned end with the directory, the output name and at least two
image names, in the order of the command line. -/
theorem main_flags_run (atof : String → ℚ) :
    ∀ (l : List String) (c g c1 g1 : ℚ) (dir_path out_name : String) (in_names : List String),
      main_flags atof l c g = .run c1 g1 dir_path out_name in_names →
      (∃ pre, l = pre ++ dir_path :: out_name :: in_names) ∧ 2 ≤ in_names.length
  | [], c, g, c1, g1, dir_path, out_name, in_names, h => by
    simp [main_flags] at h
  | [a], c, g, c1, g1, dir_path, out_name, in_names, h => by
    rw [main_flags] at h
    split_ifs at h
    obtain ⟨h1, h2⟩ := main_positional_run c g c1 g1 [a] dir_path out_name in_names h
    exact ⟨⟨[], h1⟩, h2⟩
  | a :: v :: rest, c, g, c1, g1, dir_path, out_name, in_names, h => by
    rw [main_flags] at h
    split_ifs at h
    · obtain ⟨⟨pre, h1⟩, h2⟩ :=
        main_flags_run atof rest (atof v) g c1 g1 dir_path out_name in_names h
      exact ⟨⟨a :: v :: pre, by rw [h1]; rfl⟩, h2⟩
    · obtain ⟨⟨pre, h1⟩, h2⟩ :=
        main_flags_run atof rest c (atof v) c1 g1 dir_path out_name in_names h
      exact ⟨⟨a :: v :: pre, by rw [h1]; rfl⟩, h2⟩
    · obtain ⟨h1, h2⟩ :=
        main_positional_run c g c1 g1 (a :: v :: rest) dir_path out_name in_names h
      exact ⟨⟨[], h1⟩, h2⟩

/-- The buffer `load_raws` leaves in `imgs` is the dense allocation of extents
(width, height, number of names). -/
theorem load_raws_dim (load_image : Decoder) (init : Mem) (dir_path : String)
    (img_names : List String) (width height : Nat) (ok : Bool) (imgs : Buffer)
    (h : HDRPlus.load_raws load_image init dir_path img_names width height = some (ok, imgs)) :
    imgs.dim = dense_dims 1 [width, height, img_names.length] := by
  unfold HDRPlus.load_raws at h
  dsimp only at h
  cases hl : load_raws_loop load_image dir_path width height img_names
      (Buffer.alloc [width, height, img_names.length] init).host 0 with
  | none => rw [hl] at h; simp at h
  | some r =>
    rw [hl] at h
    simp only [Option.some.injEq, Prod.mk.injEq] at h
    rw [← h.2]
    rfl

/-- C16: whenever `main` reaches the call to `load_raws`, the list of image
names has at least 2 entries and is the end of the command line, after the
directory and the output name; a stack loaded from it has three axes and at
least 2 frames, the constructor accepts it, and `main` never ends on the
constructor's assertion. -/
theorem main_names (W : World) (argv : List String) (c g : ℚ) (dir_path out_name : String)
    (in_names : List String)
    (h : main_args W.atof argv = .run c g dir_path out_name in_names) :
    2 ≤ in_names.length ∧
    (∃ pre, argv = pre ++ dir_path :: out_name :: in_names) ∧
    (∀ imgs, HDRPlus.load_raws W.load_image W.stack_init dir_path in_names 5312 2988
        = some (true, imgs) →
      imgs.dimensions = 3 ∧ imgs.extent 2 = in_names.length ∧ imgs.extent 2 ≥ 2 ∧
      ∀ wb, (HDRPlus.new imgs 2050 15464 wb c g).isSome = true) ∧
    main W argv ≠ .aborted := by
  have hrun : (∃ pre, argv.drop 1 = pre ++ dir_path :: out_name :: in_names) ∧
      2 ≤ in_names.length := by
    unfold main_args at h
    split_ifs at h with hlen
    · cases argv with
      | nil => simp at h
      | cons a t => simp at h
    · exact main_flags_run W.atof _ _ _ _ _ _ _ _ h
  obtain ⟨⟨pre, hpre⟩, hlen⟩ := hrun
  have hstack : ∀ imgs, HDRPlus.load_raws W.load_image W.stack_init dir_path in_names 5312 2988
      = some (true, imgs) →
      imgs.dimensions = 3 ∧ imgs.extent 2 = in_names.length ∧ imgs.extent 2 ≥ 2 ∧
      ∀ wb, (HDRPlus.new imgs 2050 15464 wb c g).isSome = true := by
    intro imgs hload
    have hd := load_raws_dim _ _ _ _ _ _ _ _ hload
    have h3 : imgs.dimensions = 3 := by simp [Buffer.dimensions, hd, dense_dims]
    have h2 : imgs.extent 2 = in_names.length := by simp [Buffer.extent, hd, dense_dims]
    refine ⟨h3, h2, by omega, ?_⟩
    intro wb
    have hge : imgs.extent 2 ≥ 2 := by omega
    simp [HDRPlus.new, h3, hge]
  refine ⟨hlen, ?_, hstack, ?_⟩
  · cases argv with
    | nil =>
      simp at hpre
    | cons a t =>
      simp only [List.drop_succ_cons, List.drop_zero] at hpre
      exact ⟨a :: pre, by rw [hpre]; rfl⟩
  · unfold main
    rw [h]
    dsimp only
    cases hl : HDRPlus.load_raws W.load_image W.stack_init dir_path in_names 5312 2988 with
    | none => simp
    | some r =>
      obtain ⟨ok, imgs⟩ := r
      cases ok with
      | false => simp
      | true =>
        obtain ⟨_, _, _, hnew⟩ := hstack imgs hl
        cases in_names with
        | nil => simp
        | cons first rest =>
          dsimp only
          have hsome := hnew (read_white_balance W.popen W.buf0 (dir_path ++ "/" ++ first))
          cases hn : HDRPlus.new imgs 2050 15464
              (read_white_balance W.popen W.buf0 (dir_path ++ "/" ++ first)) c g with
          | none => rw [hn] at hsome; simp at hsome
          | some hdr =>
            dsimp only
            cases HDRPlus.save_png W.stbi_write_png dir_path out_name
                (hdr.process W.stages W.output_init) with
            | none => simp
            | some b => cases b <;> simp

/-- Witness for C16: a command line with one flag and two image names. -/
theorem main_names_witness :
    main_args sample_world.atof ["prog", "-c", "4", "d", "out.png", "a", "b"]
      = .run 0 (11 / 10) "d" "out.png" ["a", "b"] ∧
    2 ≤ ["a", "b"].length ∧
    main sample_world ["prog", "-c", "4", "d", "out.png", "a", "b"] ≠ .aborted :=
  have h : main_args sample_world.atof ["prog", "-c", "4", "d", "out.png", "a", "b"]
      = .run 0 (11 / 10) "d" "out.png" ["a", "b"] := by
    simp [main_args, main_flags, main_positional, is_dash, flag_char, sample_world]
  ⟨h, (main_names sample_world _ _ _ _ _ _ h).1, (main_names sample_world _ _ _ _ _ _ h).2.2.2⟩

/-- C15, at the failing input: on `prog -c 1 -g 2` the check `argc < 5` passes,
the flag loop consumes both flags and then evaluates `argv[5][0]`, where
`argv[5]` is `argv[argc]`, a null pointer: no usage message, no exit status. -/
theorem main_flags_only_undefined (W : World) :
    ¬ (["prog", "-c", "1", "-g", "2"].length < 5) ∧
    main_flags W.atof ["-g", "2"] (W.atof "1") (11 / 10)
      = main_flags W.atof [] (W.atof "1") (W.atof "2") ∧
    main_args W.atof ["prog", "-c", "1", "-g", "2"] = .undefined ∧
    main W ["prog", "-c", "1", "-g", "2"] = .undefined := by
  have h : main_args W.atof ["prog", "-c", "1", "-g", "2"] = .undefined := by
    simp [main_args, main_flags, is_dash, flag_char]
  refine ⟨by decide, ?_, h, ?_⟩
  · simp [main_flags, is_dash, flag_char]
  · simp only [main, h]

/-! ### When `load_raw` succeeds -/

/-- The number of items `fread16` reads: all that were asked for, or as many
as the stream has whole. -/
theorem fread16_count (le : Bool) (count : Nat) (s : List Byte) (mem : Mem) (data : Nat) :
    (fread16 le count s mem data).1 = min count (s.length / 2) := by
  induction count generalizing s mem data with
  | zero => simp [fread16]
  | succ n ih =>
    match s with
    | [] => simp [fread16]
    | [_] => simp [fread16]
    | b0 :: b1 :: t =>
      simp only [fread16, ih, List.length_cons]
      omega

/-- The read of `count` samples is complete exactly when the stream has
`2 * count` bytes. -/
theorem fread16_complete_iff (le : Bool) (count : Nat) (s : List Byte) (mem : Mem)
    (data : Nat) : (fread16 le count s mem data).1 = count ↔ 2 * count ≤ s.length := by
  rw [fread16_count]
  omega

/-- The call of `load_raw` on a stream whose header passes every check: it
succeeds when the stream after the third read has `2 * width * height` bytes
and ends with the short read error otherwise. -/
theorem load_raw_after_header (popen : String → Option (List Byte)) (le : Bool)
    (buf0 : List Byte) (filename : String) (mem : Mem) (data width height : Nat)
    (out header : List Byte)
    (hopen : popen ("dcraw -c -D -6 -W -g 1 1 " ++ filename) = some out)
    (htag : sscanf_s255 (header_read1 buf0 out).2.1 = some header)
    (hp5 : header = bytes "P5" ∨ header = bytes "p5")
    (hdim : sscanf_d_d (header_read2 buf0 out).2.1 = some ((width : Int), (height : Int)))
    (hmax : sscanf_d (header_read3 buf0 out).2.1 = some 65535)
    (hmul : width * height < 2 ^ 31) :
    (2 * (width * height) ≤ (header_read3 buf0 out).2.2.rest.length →
      ∃ mem1, load_raw popen le buf0 filename mem data width height = some (.ok, mem1)) ∧
    ((header_read3 buf0 out).2.2.rest.length < 2 * (width * height) →
      ∃ mem1, load_raw popen le buf0 filename mem data width height
        = some (.error .short_read, mem1)) := by
  have hmul1 : width * height < 2147483648 := by simpa using hmul
  constructor
  · intro hlen
    obtain ⟨mem1, h, _⟩ := load_raw_ok popen le buf0 filename mem data width height out header
      _ _ _ hopen rfl htag hp5 rfl hdim rfl hmax hmul hlen
    exact ⟨mem1, h⟩
  · intro hlen
    have hshort : ¬ ((fread16 le (width * height) (header_read3 buf0 out).2.2.rest mem data).1
        = width * height) := by
      rw [fread16_complete_iff]
      omega
    refine ⟨(fread16 le (width * height) (header_read3 buf0 out).2.2.rest mem data).2, ?_⟩
    simp only [header_read1, header_read2, header_read3] at htag hdim hmax hshort ⊢
    simp [load_raw, hopen, htag, hp5, hdim, hmax, int_mul, hmul1, hshort]

/-- A successful call of `load_raw` has passed every check: the process was
started, the three header reads gave the tag, the expected dimensions and
65535, the product of the dimensions is an `int`, and the stream after the
third read had `2 * width * height` bytes. -/
theorem load_raw_ok_checks (popen : String → Option (List Byte)) (le : Bool)
    (buf0 : List Byte) (filename : String) (mem : Mem) (data width height : Nat) (mem1 : Mem)
    (h : load_raw popen le buf0 filename mem data width height = some (.ok, mem1)) :
    ∃ out header, popen ("dcraw -c -D -6 -W -g 1 1 " ++ filename) = some out ∧
      sscanf_s255 (header_read1 buf0 out).2.1 = some header ∧
      (header = bytes "P5" ∨ header = bytes "p5") ∧
      sscanf_d_d (header_read2 buf0 out).2.1 = some ((width : Int), (height : Int)) ∧
      sscanf_d (header_read3 buf0 out).2.1 = some 65535 ∧
      width * height < 2 ^ 31 ∧
      2 * (width * height) ≤ (header_read3 buf0 out).2.2.rest.length := by
  cases hopen : popen ("dcraw -c -D -6 -W -g 1 1 " ++ filename) with
  | none =>
    have e : load_raw popen le buf0 filename mem data width height
        = some (.error .could_not_open, mem) := by simp [load_raw, hopen]
    rw [e] at h
    simp at h
  | some out =>
    cases htag : sscanf_s255 (header_read1 buf0 out).2.1 with
    | none =>
      have e : load_raw popen le buf0 filename mem data width height
          = some (.error .no_header, mem) := by
        simp only [header_read1] at htag
        simp [load_raw, hopen, htag]
      rw [e] at h
      simp at h
    | some header =>
      by_cases hp5 : header = bytes "P5" ∨ header = bytes "p5"
      swap
      · have e : load_raw popen le buf0 filename mem data width height
            = some (.error .not_binary, mem) := by
          simp only [header_read1] at htag
          simp [load_raw, hopen, htag, hp5]
        rw [e] at h
        simp at h
      cases hdim : sscanf_d_d (header_read2 buf0 out).2.1 with
      | none =>
        have e : load_raw popen le buf0 filename mem data width height
            = some (.error .no_dimensions, mem) := by
          simp only [header_read1, header_read2] at htag hdim
          simp [load_raw, hopen, htag, hp5, hdim]
        rw [e] at h
        simp at h
      | some wh =>
        obtain ⟨in_width, in_height⟩ := wh
        by_cases hw : in_width = (width : Int)
        swap
        · have e : load_raw popen le buf0 filename mem data width height
              = some (.error .wrong_width, mem) := by
            simp only [header_read1, header_read2] at htag hdim
            simp [load_raw, hopen, htag, hp5, hdim, hw]
          rw [e] at h
          simp at h
        by_cases hh : in_height = (height : Int)
        swap
        · have e : load_raw popen le buf0 filename mem data width height
              = some (.error .wrong_height, mem) := by
            simp only [header_read1, header_read2] at htag hdim
            simp [load_raw, hopen, htag, hp5, hdim, hw, hh]
          rw [e] at h
          simp at h
        subst hw
        subst hh
        cases hmax : sscanf_d (header_read3 buf0 out).2.1 with
        | none =>
          have e : load_raw popen le buf0 filename mem data width height
              = some (.error .no_max_value, mem) := by
            simp only [header_read1, header_read2, header_read3] at htag hdim hmax
            simp [load_raw, hopen, htag, hp5, hdim, hmax]
          rw [e] at h
          simp at h
        | some maxval =>
          by_cases hm : maxval = 65535
          swap
          · have e : load_raw popen le buf0 filename mem data width height
                = some (.error .invalid_bit_depth, mem) := by
              simp only [header_read1, header_read2, header_read3] at htag hdim hmax
              simp [load_raw, hopen, htag, hp5, hdim, hmax, hm]
            rw [e] at h
            simp at h
          subst hm
          by_cases hmul : width * height < 2 ^ 31
          swap
          · have hmul1 : ¬ (width * height < 2147483648) := by simpa using hmul
            have e : load_raw popen le buf0 filename mem data width height = none := by
              simp only [header_read1, header_read2, header_read3] at htag hdim hmax
              simp [load_raw, hopen, htag, hp5, hdim, hmax, int_mul, hmul1]
            rw [e] at h
            simp at h
          by_cases hlen : 2 * (width * height) ≤ (header_read3 buf0 out).2.2.rest.length
          · exact ⟨out, header, rfl, htag, hp5, hdim, hmax, hmul, hlen⟩
          · obtain ⟨mem2, e⟩ := (load_raw_after_header popen le buf0 filename mem data width
              height out header hopen htag hp5 hdim hmax hmul).2 (by omega)
            rw [e] at h
            simp at h

/-- The lines of a stream that starts with a text without a newline, then a newline. -/
theorem stream_lines_append_line (xs t : List Byte) (h : ∀ c ∈ xs, c ≠ 10) :
    stream_lines (xs ++ 10 :: t) = (xs ++ [10]) :: stream_lines t := by
  induction xs with
  | nil => simp [stream_lines]
  | cons c u ih =>
    have hc : c ≠ 10 := h c (List.mem_cons_self _ _)
    have hu := ih (fun d hd => h d (List.mem_cons_of_mem _ hd))
    simp [stream_lines, hc, hu]

set_option maxRecDepth 50000 in
/-- C17, at a failing input: the header has the lines `P5`, a comment line of
1025 bytes, `1 1` and `65535`, and two bytes of samples follow, so every
condition of C17 holds for a 1 x 1 frame; yet `load_raw` fails with the error
for unreadable dimensions: `readLine` skips the first 1023 bytes of the
comment line only, and hands over the rest of it as the line of the
dimensions. -/
theorem load_raw_long_comment :
    stream_lines comment_header
      = [bytes "P5\n", long_comment, bytes "1 1\n", bytes "65535\n"] ∧
    long_comment.head? = some 35 ∧
    sscanf_s255 (bytes "P5\n") = some (bytes "P5") ∧
    sscanf_d_d (bytes "1 1\n") = some (1, 1) ∧
    sscanf_d (bytes "65535\n") = some 65535 ∧
    comment_pgm = comment_header ++ [1, 2] ∧
    (load_raw (fun _ => some comment_pgm) true [] "a.CR2" (fun _ => 0) 0 1 1).map Prod.fst
      = some (.error .no_dimensions) := by
  refine ⟨?_, rfl, by decide, by decide, by decide, rfl, by decide⟩
  have e : comment_header = [80, 53] ++ 10 :: ((35 :: List.replicate 1023 120) ++ 10 ::
      bytes "1 1\n65535\n") := by
    simp only [comment_header, long_comment, List.append_assoc, List.cons_append,
      List.nil_append, List.singleton_append]
    rfl
  have h1 : ∀ c ∈ ([80, 53] : List Byte), c ≠ 10 := by decide
  have h2 : ∀ c ∈ (35 :: List.replicate 1023 120 : List Byte), c ≠ 10 := by
    intro c hc
    simp only [List.mem_cons, List.mem_replicate] at hc
    rcases hc with rfl | ⟨_, rfl⟩ <;> decide
  rw [e, stream_lines_append_line _ _ h1, stream_lines_append_line _ _ h2]
  have h3 : stream_lines (bytes "1 1\n65535\n") = [bytes "1 1\n", bytes "65535\n"] := by decide
  rw [h3]
  rfl

/-- In terms of what the three calls of `readLine` leave in the buffer:
`load_raw` succeeds exactly when the decoder process was started, the buffer
after the first call has the token `P5` or `p5` first, `%d %d` on the buffer
after the second call stores the expected width and height, `%d` on the buffer
after the third call stores 65535, the product of the dimensions is an `int`,
and at least width * height samples follow. With fewer samples the call ends
with the short read error. -/
theorem load_raw_ok_iff (popen : String → Option (List Byte)) (le : Bool)
    (buf0 : List Byte) (filename : String) (mem : Mem) (data width height : Nat) :
    ((∃ mem1, load_raw popen le buf0 filename mem data width height = some (.ok, mem1)) ↔
      ∃ out header, popen ("dcraw -c -D -6 -W -g 1 1 " ++ filename) = some out ∧
        sscanf_s255 (header_read1 buf0 out).2.1 = some header ∧
        (header = bytes "P5" ∨ header = bytes "p5") ∧
        sscanf_d_d (header_read2 buf0 out).2.1 = some ((width : Int), (height : Int)) ∧
        sscanf_d (header_read3 buf0 out).2.1 = some 65535 ∧
        width * height < 2 ^ 31 ∧
        2 * (width * height) ≤ (header_read3 buf0 out).2.2.rest.length) ∧
    (∀ out header, popen ("dcraw -c -D -6 -W -g 1 1 " ++ filename) = some out →
      sscanf_s255 (header_read1 buf0 out).2.1 = some header →
      (header = bytes "P5" ∨ header = bytes "p5") →
      sscanf_d_d (header_read2 buf0 out).2.1 = some ((width : Int), (height : Int)) →
      sscanf_d (header_read3 buf0 out).2.1 = some 65535 →
      width * height < 2 ^ 31 →
      (header_read3 buf0 out).2.2.rest.length < 2 * (width * height) →
      ∃ mem1, load_raw popen le buf0 filename mem data width height
        = some (.error .short_read, mem1)) := by
  constructor
  · constructor
    · rintro ⟨mem1, h⟩
      exact load_raw_ok_checks popen le buf0 filename mem data width height mem1 h
    · rintro ⟨out, header, hopen, htag, hp5, hdim, hmax, hmul, hlen⟩
      exact (load_raw_after_header popen le buf0 filename mem data width height out header
        hopen htag hp5 hdim hmax hmul).1 hlen
  · intro out header hopen htag hp5 hdim hmax hmul hlen
    exact (load_raw_after_header popen le buf0 filename mem data width height out header
      hopen htag hp5 hdim hmax hmul).2 hlen

/-- Example: a complete 1 x 1 frame is decoded, and a frame with a single
byte of samples ends with the short read error. -/
theorem load_raw_ok_iff_witness :
    (∃ mem1, load_raw (fun _ => some sample_pgm) true [] "a.CR2" (fun _ => 0) 0 1 1
      = some (.ok, mem1)) ∧
    (∃ mem1, load_raw (fun _ => some short_pgm) true [] "a.CR2" (fun _ => 0) 0 1 1
      = some (.error .short_read, mem1)) :=
  ⟨(load_raw_ok_iff (fun _ => some sample_pgm) true [] "a.CR2" (fun _ => 0) 0 1 1).1.2
      ⟨sample_pgm, bytes "P5", rfl, by decide, Or.inl rfl, by decide, by decide, by decide,
        by decide⟩,
   (load_raw_ok_iff (fun _ => some short_pgm) true [] "a.CR2" (fun _ => 0) 0 1 1).2
      short_pgm (bytes "P5") rfl (by decide) (Or.inl rfl) (by decide) (by decide) (by decide)
      (by decide)⟩

/-- A command line of one to four entries gets the usage message and status 1,
whatever the world: nothing is loaded. -/
theorem main_short_usage (W : World) (argv : List String) (h1 : argv ≠ [])
    (h5 : argv.length < 5) : main_args W.atof argv = .usage ∧ main W argv = .exit 1 := by
  have h : main_args W.atof argv = .usage := by
    unfold main_args
    rw [if_pos h5]
    cases argv with
    | nil => exact absurd rfl h1
    | cons a t => rfl
  exact ⟨h, by simp only [main, h]⟩

/-- A flag loop that is given nothing but c and g flags with their values runs
to `argv[argc]`. -/
theorem main_flags_pairs_undefined (atof : String → ℚ) (fs : List (String × String))
    (c g : ℚ)
    (h : ∀ p ∈ fs, is_dash p.1 = true ∧ (flag_char p.1 = some 'c' ∨ flag_char p.1 = some 'g')) :
    main_flags atof (fs.flatMap fun p => [p.1, p.2]) c g = .undefined := by
  induction fs generalizing c g with
  | nil => rfl
  | cons p rest ih =>
    obtain ⟨hd, hcg⟩ := h p (List.mem_cons_self _ _)
    have hrest := fun q hq => h q (List.mem_cons_of_mem _ hq)
    simp only [List.flatMap_cons, List.cons_append, List.nil_append, main_flags, hd, if_true]
    rcases hcg with hc | hg
    · rw [if_pos hc]
      exact ih _ _ hrest
    · by_cases hc : flag_char p.1 = some 'c'
      · rw [if_pos hc]
        exact ih _ _ hrest
      · rw [if_neg hc, if_pos hg]
        exact ih _ _ hrest

end HdrPlus
